import Mathlib

/-!
# SPI master transfer engine (`firmware/master/stm32/spi.cpp`)

A shallow embedding of `SPIMaster` and a verification of its documented
behaviour.

* The peripheral on the other side of the bus is a parameter: a `Periph σ`
  says how the device reacts to a data-register write, a status-register read
  and a data-register read.
* The register block of one bus instance together with its two DMA channels
  and its chip-select pin is the record `HW σ`.  Every register access, pin
  change and callback invocation is appended to `HW.trace` in program order.
* Byte memory is a function `Mem`; a `uint8_t` load is `load8`, a `uint8_t`
  store is `store8`.
* The busy-wait loops of the source have no bound.  Each loop of the model takes
  a bound on its number of iterations and yields `none` when the bound is
  exhausted.
-/

namespace SPI

/-! ## Data model -/

/-- The three SPI peripherals that `SPIMaster::init` distinguishes. -/
inductive HwId
  | SPI1
  | SPI2
  | SPI3
  deriving DecidableEq, Repr

/-- The two DMA controllers. -/
inductive DmaCtl
  | DMA1
  | DMA2
  deriving DecidableEq, Repr

/-- The four GPIO pins of a bus instance. -/
inductive Pin
  | csn
  | sck
  | miso
  | mosi
  deriving DecidableEq, Repr

/-- The pin modes used by `init`. -/
inductive PinMode
  | OUT_10MHZ
  | OUT_ALT_50MHZ
  | IN_FLOAT
  deriving DecidableEq, Repr

/-- Observable events, in program order: register accesses of the SPI block and
of the two DMA channels, chip-select changes, the platform calls made by `init`
and the invocation of the completion callback. -/
inductive Ev
  | wrDR (v : Nat)
  | rdDR (v : Nat)
  | rdSR (v : Nat)
  | rdCR1 (v : Nat)
  | wrCR1 (v : Nat)
  | rdCR2 (v : Nat)
  | wrCR2 (v : Nat)
  | wrRxCNDTR (v : Nat)
  | wrRxCMAR (v : Nat)
  | wrRxCPAR (v : Nat)
  | wrRxCCR (v : Nat)
  | wrTxCNDTR (v : Nat)
  | wrTxCMAR (v : Nat)
  | wrTxCPAR (v : Nat)
  | wrTxCCR (v : Nat)
  | csnLow
  | csnHigh
  | orAPB1ENR (mask : Nat)
  | orAPB2ENR (mask : Nat)
  | orMAPR (mask : Nat)
  | registerHandler (ctl : DmaCtl) (ch : Nat)
  | setControl (pin : Pin) (mode : PinMode)
  | call (cb : Nat) (param : Nat)
  deriving DecidableEq, Repr

/-- Registers of one DMA channel. -/
structure Chan where
  CCR : Nat
  CNDTR : Nat
  CPAR : Nat
  CMAR : Nat
  deriving DecidableEq, Repr

/-- Behaviour of the device behind the register block: its reaction to a write
of the data register, to a read of the status register and to a read of the
data register.  A read returns the register value and the next device state. -/
structure Periph (σ : Type) where
  wrDR : σ → Nat → σ
  rdSR : σ → Nat × σ
  rdDR : σ → Nat × σ

/-- Register state of one bus instance: the device behind `hw`, the plain
control registers `CR1` and `CR2`, the channels `dmaRxChan` and `dmaTxChan`
point to, the chip-select level (`true` is high, deasserted) and the trace. -/
structure HW (σ : Type) where
  dev : σ
  CR1 : Nat
  CR2 : Nat
  rx : Chan
  tx : Chan
  csn : Bool
  trace : List Ev
  deriving DecidableEq, Repr

/-- Member variables of `SPIMaster`.  `completionCB` is a function pointer
(`none` is the null pointer), `completionParam` the `void*` handed to it. -/
structure SPIMaster where
  hw : HwId
  dmaPriorityBits : Nat
  dmaRxChan : DmaCtl × Nat
  dmaTxChan : DmaCtl × Nat
  completionCB : Option Nat
  completionParam : Nat
  deriving DecidableEq, Repr

/-- Byte-addressed memory. -/
abbrev Mem := Nat → Nat

/-- A `uint8_t` load. -/
def load8 (m : Mem) (a : Nat) : Nat := m a % 256

/-- A `uint8_t` store of a wider value. -/
def store8 (m : Mem) (a v : Nat) : Mem := fun x => if x = a then v % 256 else m x

variable {σ : Type}

/-- Append one event to the trace. -/
def HW.log (s : HW σ) (e : Ev) : HW σ := { s with trace := s.trace ++ [e] }

/-! ## `SPIMaster::init` -/

/-- Source function `SPIMaster::init`.  `drAddr` is the address of `hw->DR`, `boardRev1` says
whether `BOARD >= BOARD_TC_MASTER_REV1`.  The clock enables, handler
registrations, pin set-up and remaps are platform calls and are recorded as
events. -/
def init (drAddr : Nat) (boardRev1 : Bool) (inst : SPIMaster) (s : HW σ) : SPIMaster × HW σ :=
  let (inst, s) :=
    match inst.hw with
    | HwId.SPI1 =>
        ({ inst with dmaPriorityBits := 1 <<< 12,
                     dmaRxChan := (DmaCtl.DMA1, 1), dmaTxChan := (DmaCtl.DMA1, 2) },
         (((s.log (Ev.orAPB2ENR (1 <<< 12))).log (Ev.registerHandler DmaCtl.DMA1 1)).log
            (Ev.registerHandler DmaCtl.DMA1 2)))
    | HwId.SPI2 =>
        ({ inst with dmaPriorityBits := 2 <<< 12,
                     dmaRxChan := (DmaCtl.DMA1, 3), dmaTxChan := (DmaCtl.DMA1, 4) },
         (((s.log (Ev.orAPB1ENR (1 <<< 14))).log (Ev.registerHandler DmaCtl.DMA1 3)).log
            (Ev.registerHandler DmaCtl.DMA1 4)))
    | HwId.SPI3 =>
        ({ inst with dmaPriorityBits := 3 <<< 12,
                     dmaRxChan := (DmaCtl.DMA2, 0), dmaTxChan := (DmaCtl.DMA2, 1) },
         (((s.log (Ev.orAPB1ENR (1 <<< 15))).log (Ev.registerHandler DmaCtl.DMA2 0)).log
            (Ev.registerHandler DmaCtl.DMA2 1)))
  let s := { s with csn := true }.log Ev.csnHigh
  let s := s.log (Ev.setControl Pin.csn PinMode.OUT_10MHZ)
  let s := s.log (Ev.setControl Pin.sck PinMode.OUT_ALT_50MHZ)
  let s := s.log (Ev.setControl Pin.miso PinMode.IN_FLOAT)
  let s := s.log (Ev.setControl Pin.mosi PinMode.OUT_ALT_50MHZ)
  let s :=
    if boardRev1 then
      match inst.hw with
      | HwId.SPI1 => s.log (Ev.orMAPR ((0x4 <<< 24) ||| (1 <<< 0)))
      | HwId.SPI2 => s
      | HwId.SPI3 => s.log (Ev.orMAPR (1 <<< 28))
    else s
  let s := { s with rx := { s.rx with CPAR := drAddr } }.log (Ev.wrRxCPAR drAddr)
  let s := { s with tx := { s.tx with CPAR := drAddr } }.log (Ev.wrTxCPAR drAddr)
  let s := { s with rx := { s.rx with CCR := 0 } }.log (Ev.wrRxCCR 0)
  let s := { s with tx := { s.tx with CCR := 0 } }.log (Ev.wrTxCCR 0)
  let s := { s with CR1 := 1 <<< 2 }.log (Ev.wrCR1 (1 <<< 2))
  let s := { s with CR2 := 1 <<< 2 }.log (Ev.wrCR2 (1 <<< 2))
  let s := ({ s with CR1 := s.CR1 ||| (1 <<< 6) }.log (Ev.rdCR1 s.CR1)).log
              (Ev.wrCR1 (s.CR1 ||| (1 <<< 6)))
  (inst, s)

/-! ## Blocking transfers -/

/-- The loop `while (!(hw->SR & 1));`, at most `fuel` reads of `SR`. -/
def pollRXNE (P : Periph σ) : Nat → HW σ → Option (HW σ)
  | 0, _ => none
  | fuel + 1, s =>
    let r := P.rdSR s.dev
    let s1 := { s with dev := r.2 }.log (Ev.rdSR r.1)
    if r.1 &&& 1 = 0 then pollRXNE P fuel s1 else some s1

/-- Source function `uint8_t SPIMaster::transfer(uint8_t b)`: write `DR`, wait for RX-not-empty,
read `DR`.  `b` is a `uint8_t` value; the result is the low byte of `DR`. -/
def transfer (P : Periph σ) (fuel : Nat) (b : Nat) (s : HW σ) : Option (Nat × HW σ) :=
  let s1 := { s with dev := P.wrDR s.dev b }.log (Ev.wrDR b)
  match pollRXNE P fuel s1 with
  | none => none
  | some s2 =>
    let r := P.rdDR s2.dev
    some (r.1 % 256, { s2 with dev := r.2 }.log (Ev.rdDR r.1))

/-- Source function
`void SPIMaster::transfer(const uint8_t *txbuf, uint8_t *rxbuf, unsigned len)`:
the loop `while (len--)` with its body written out as in the source. -/
def transferBuf (P : Periph σ) (fuel : Nat) : Nat → Nat → Nat → Mem × HW σ → Option (Mem × HW σ)
  | _, _, 0, ms => some ms
  | txbuf, rxbuf, len + 1, (m, s) =>
    let b := load8 m txbuf
    let s1 := { s with dev := P.wrDR s.dev b }.log (Ev.wrDR b)
    match pollRXNE P fuel s1 with
    | none => none
    | some s2 =>
      let r := P.rdDR s2.dev
      transferBuf P fuel (txbuf + 1) (rxbuf + 1) len
        (store8 m rxbuf r.1, { s2 with dev := r.2 }.log (Ev.rdDR r.1))

/-- Modelled from the spec: `SPIMaster::begin()` of `spi.h`, which asserts
chip-select (drives the pin low). -/
def begin (s : HW σ) : HW σ := { s with csn := false }.log Ev.csnLow

/-- Modelled from the spec: `SPIMaster::end()` of `spi.h`, which deasserts
chip-select (drives the pin high). -/
def end_ (s : HW σ) : HW σ := { s with csn := true }.log Ev.csnHigh

/-- The inner loop `do { transfer(*table); table++; } while (--len);` of
`transferTable`, with `len` a `uint8_t`.  At most `k` iterations; every
busy-wait is bounded by `fuel`.  Yields the advanced table pointer. -/
def payloadLoop (P : Periph σ) (fuel : Nat) (m : Mem) : Nat → Nat → Nat → HW σ → Option (Nat × HW σ)
  | 0, _, _, _ => none
  | k + 1, len, table, s =>
    match transfer P fuel (load8 m table) s with
    | none => none
    | some (_, s1) =>
      let table := table + 1
      let len := (len + 255) % 256
      if len ≠ 0 then payloadLoop P fuel m k len table s1 else some (table, s1)

/-- The outer loop `while ((len = *table)) { table++; begin(); ...; end(); }` of
`transferTable`, at most `k` iterations. -/
def tableLoop (P : Periph σ) (fuel : Nat) (m : Mem) : Nat → Nat → HW σ → Option (HW σ)
  | 0, _, _ => none
  | k + 1, table, s =>
    let len := load8 m table
    if len ≠ 0 then
      let table := table + 1
      match payloadLoop P fuel m fuel len table (begin s) with
      | none => none
      | some (table, s1) => tableLoop P fuel m k table (end_ s1)
    else some s

/-- Source function `void SPIMaster::transferTable(const uint8_t *table)`; `fuel` bounds the
iterations of each of its loops. -/
def transferTable (P : Periph σ) (fuel : Nat) (m : Mem) (table : Nat) (s : HW σ) : Option (HW σ) :=
  tableLoop P fuel m fuel table s

/-! ## DMA transfers -/

/-- The statement `hw->CR2 |= (1 << 0) | (1 << 1);`. -/
def enableDma (s : HW σ) : HW σ :=
  ({ s with CR2 := s.CR2 ||| ((1 <<< 0) ||| (1 <<< 1)) }.log (Ev.rdCR2 s.CR2)).log
    (Ev.wrCR2 (s.CR2 ||| ((1 <<< 0) ||| (1 <<< 1))))

/-- Source function `SPIMaster::transferDma(txbuf, rxbuf, len)`; the buffers are given by their
addresses. -/
def transferDma (inst : SPIMaster) (txbuf rxbuf len : Nat) (s : HW σ) : HW σ :=
  let s := { s with rx := { s.rx with CNDTR := len } }.log (Ev.wrRxCNDTR len)
  let s := { s with rx := { s.rx with CMAR := rxbuf } }.log (Ev.wrRxCMAR rxbuf)
  let rxCCR := inst.dmaPriorityBits ||| (1 <<< 7) ||| (0 <<< 4) ||| (1 <<< 3) ||| (0 <<< 2)
                 ||| (1 <<< 1) ||| (1 <<< 0)
  let s := { s with rx := { s.rx with CCR := rxCCR } }.log (Ev.wrRxCCR rxCCR)
  let s := { s with tx := { s.tx with CNDTR := len } }.log (Ev.wrTxCNDTR len)
  let s := { s with tx := { s.tx with CMAR := txbuf } }.log (Ev.wrTxCMAR txbuf)
  let txCCR := inst.dmaPriorityBits ||| (1 <<< 7) ||| (1 <<< 4) ||| (1 <<< 3) ||| (0 <<< 1)
                 ||| (1 <<< 0)
  let s := { s with tx := { s.tx with CCR := txCCR } }.log (Ev.wrTxCCR txCCR)
  enableDma s

/-- Source function `SPIMaster::txDma(txbuf, len)`; `dummy` is the address of the function's
`static uint8_t dummy`. -/
def txDma (dummy : Nat) (inst : SPIMaster) (txbuf len : Nat) (s : HW σ) : HW σ :=
  let s := { s with rx := { s.rx with CNDTR := len } }.log (Ev.wrRxCNDTR len)
  let s := { s with rx := { s.rx with CMAR := dummy } }.log (Ev.wrRxCMAR dummy)
  let rxCCR := inst.dmaPriorityBits ||| (0 <<< 7) ||| (0 <<< 4) ||| (1 <<< 3) ||| (1 <<< 1)
                 ||| (1 <<< 0)
  let s := { s with rx := { s.rx with CCR := rxCCR } }.log (Ev.wrRxCCR rxCCR)
  let s := { s with tx := { s.tx with CNDTR := len } }.log (Ev.wrTxCNDTR len)
  let s := { s with tx := { s.tx with CMAR := txbuf } }.log (Ev.wrTxCMAR txbuf)
  let txCCR := inst.dmaPriorityBits ||| (1 <<< 7) ||| (1 <<< 4) ||| (1 <<< 3) ||| (0 <<< 1)
                 ||| (1 <<< 0)
  let s := { s with tx := { s.tx with CCR := txCCR } }.log (Ev.wrTxCCR txCCR)
  enableDma s

/-- Source function `SPIMaster::dmaInProgress()`: `hw->CR2 & ((1 << 1) | (1 << 0))` as a `bool`. -/
def dmaInProgress (s : HW σ) : Bool :=
  decide (s.CR2 &&& ((1 <<< 1) ||| (1 <<< 0)) ≠ 0)

/-- Source function `SPIMaster::dmaCallback(p, flags)`, with `p` the instance.  `CR2` is a
32-bit register, so `~((1 << 1) | (1 << 0))` is `0xFFFFFFFC`.  The callback is
code of the owner of the instance: its invocation is recorded as the event
`Ev.call`, and the state returned is the one the callback is entered with. -/
def dmaCallback (P : Periph σ) (inst : SPIMaster) (_flags : Nat) (s : HW σ) : HW σ :=
  let r := P.rdSR s.dev
  let s := { s with dev := r.2 }.log (Ev.rdSR r.1)
  let s :=
    if r.1 &&& (1 <<< 6) ≠ 0 then
      let d := P.rdDR s.dev
      { s with dev := d.2 }.log (Ev.rdDR d.1)
    else s
  let s := { s with tx := { s.tx with CCR := 0 } }.log (Ev.wrTxCCR 0)
  let s := { s with rx := { s.rx with CCR := 0 } }.log (Ev.wrRxCCR 0)
  let s := ({ s with CR2 := s.CR2 &&& (0xFFFFFFFF ^^^ ((1 <<< 1) ||| (1 <<< 0))) }.log
              (Ev.rdCR2 s.CR2)).log
              (Ev.wrCR2 (s.CR2 &&& (0xFFFFFFFF ^^^ ((1 <<< 1) ||| (1 <<< 0)))))
  match inst.completionCB with
  | some cb => s.log (Ev.call cb inst.completionParam)
  | none => s

/-! ## Peripherals -/

/-- Whether RX-not-empty (`SR` bit 0) shows within `n` reads of `SR`, starting
from device state `d`. -/
def rxneWithin (P : Periph σ) : Nat → σ → Bool
  | 0, _ => false
  | n + 1, d => if (P.rdSR d).1 &&& 1 = 0 then rxneWithin P n (P.rdSR d).2 else true

/-- A peripheral that answers every write: after any write of `DR`, in any
device state, RX-not-empty shows after finitely many reads of `SR`. -/
def Answers (P : Periph σ) : Prop :=
  ∀ (d : σ) (b : Nat), ∃ n, rxneWithin P n (P.wrDR d b) = true

/-- State of the loopback test peripheral: the byte in its receive buffer, the
RX-not-empty flag and the number of `SR` reads left before the flag shows. -/
structure Loop where
  data : Nat
  rxne : Bool
  wait : Nat
  deriving DecidableEq, Repr

/-- The loopback test peripheral: a byte written to `DR` is the next byte read
from `DR`.  RX-not-empty shows after `delay` reads of `SR` that find it clear,
and a read of `DR` clears it. -/
def loopback (delay : Nat) : Periph Loop where
  wrDR := fun _ b => { data := b, rxne := true, wait := delay }
  rdSR := fun d =>
    if d.rxne then
      if d.wait = 0 then (1, d) else (0, { d with wait := d.wait - 1 })
    else (0, d)
  rdDR := fun d => (d.data, { d with rxne := false })

/-! ## Reference behaviour, following the specification -/

/-- The payload of one frame: one single-byte transfer per payload byte, in
order, the received byte discarded. -/
def payloadSpec (P : Periph σ) (fuel : Nat) : List Nat → HW σ → Option (HW σ)
  | [], s => some s
  | b :: bs, s =>
    match transfer P fuel b s with
    | none => none
    | some (_, s1) => payloadSpec P fuel bs s1

/-- A list of frames: for each frame in order, assert chip-select, transfer the
payload, deassert chip-select. -/
def framesSpec (P : Periph σ) (fuel : Nat) : List (List Nat) → HW σ → Option (HW σ)
  | [], s => some s
  | f :: fs, s =>
    match payloadSpec P fuel f (begin s) with
    | none => none
    | some s1 => framesSpec P fuel fs (end_ s1)

/-- The table that encodes a list of frames: each frame is its length byte
followed by its payload, and a zero length byte ends the table. -/
def encodeTable : List (List Nat) → List Nat
  | [] => [0]
  | f :: fs => f.length :: (f ++ encodeTable fs)

/-- The bytes `bs` are stored in memory from address `p` on. -/
def TableAt (m : Mem) : Nat → List Nat → Prop
  | _, [] => True
  | p, b :: bs => load8 m p = b ∧ TableAt m (p + 1) bs

/-- The bus commands a list of frames stands for: per frame a chip-select
assert, one `DR` write per payload byte, a chip-select deassert. -/
def frameCmds : List (List Nat) → List Ev
  | [] => []
  | f :: fs => Ev.csnLow :: (f.map Ev.wrDR ++ Ev.csnHigh :: frameCmds fs)

/-- The `len` successive calls `rxbuf[i] = transfer(txbuf[i])` of the single-byte
transfer, for `i = 0, ..., len - 1`. -/
def transferSeq (P : Periph σ) (fuel : Nat) : Nat → Nat → Nat → Mem × HW σ → Option (Mem × HW σ)
  | _, _, 0, ms => some ms
  | txbuf, rxbuf, len + 1, (m, s) =>
    match transfer P fuel (load8 m txbuf) s with
    | none => none
    | some (r, s1) => transferSeq P fuel (txbuf + 1) (rxbuf + 1) len (store8 m rxbuf r, s1)

/-- Memory after the first `i` bytes of `rs` have been stored (as `uint8_t`) at
`rxbuf`, `rxbuf + 1`, ... -/
def memAfter (m : Mem) (rxbuf : Nat) (rs : List Nat) (i : Nat) : Mem :=
  fun a => if rxbuf ≤ a ∧ a < rxbuf + i then rs.getD (a - rxbuf) 0 % 256 else m a

/-- The `DR` events of a list of exchanges `(written, read)`. -/
def exchangeEvents : List (Nat × Nat) → List Ev
  | [] => []
  | (w, r) :: xs => Ev.wrDR w :: Ev.rdDR r :: exchangeEvents xs

/-! ## Event classes -/

/-- Events that write a register of the SPI block or of a DMA channel. -/
def Ev.isRegWrite : Ev → Bool
  | Ev.wrDR _ => true
  | Ev.wrCR1 _ => true
  | Ev.wrCR2 _ => true
  | Ev.wrRxCNDTR _ => true
  | Ev.wrRxCMAR _ => true
  | Ev.wrRxCPAR _ => true
  | Ev.wrRxCCR _ => true
  | Ev.wrTxCNDTR _ => true
  | Ev.wrTxCMAR _ => true
  | Ev.wrTxCPAR _ => true
  | Ev.wrTxCCR _ => true
  | _ => false

/-- Reads of the data register. -/
def Ev.isDRRead : Ev → Bool
  | Ev.rdDR _ => true
  | _ => false

/-- Reads of the status register. -/
def Ev.isSRRead : Ev → Bool
  | Ev.rdSR _ => true
  | _ => false

/-- Writes of the data register. -/
def Ev.isDRWrite : Ev → Bool
  | Ev.wrDR _ => true
  | _ => false

/-- Chip-select changes and writes of the data register. -/
def Ev.isFrameCmd : Ev → Bool
  | Ev.csnLow => true
  | Ev.csnHigh => true
  | Ev.wrDR _ => true
  | _ => false

/-- Invocations of the completion callback. -/
def Ev.isCall : Ev → Bool
  | Ev.call _ _ => true
  | _ => false

/-- The events of the completion callback's invocation: one call with the stored
parameter when a callback is registered, nothing otherwise. -/
def callEvents (inst : SPIMaster) : List Ev :=
  match inst.completionCB with
  | some cb => [Ev.call cb inst.completionParam]
  | none => []

/-- Events a blocking transfer may produce: chip-select changes and accesses
of `DR` and `SR`. -/
def Ev.isBlocking (e : Ev) : Bool := e.isFrameCmd || e.isSRRead || e.isDRRead

/-! ## Operations of a bus instance other than the completion dispatcher -/

/-- The foreground operations of a bus instance. -/
inductive Op
  | transfer (b : Nat)
  | transferBuf (txbuf rxbuf len : Nat)
  | transferTable (table : Nat)
  | dmaInProgress
  | transferDma (txbuf rxbuf len : Nat)
  | txDma (txbuf len : Nat)
  deriving DecidableEq, Repr

/-- The operations that start a DMA transfer. -/
def Op.isStart : Op → Bool
  | Op.transferDma _ _ _ => true
  | Op.txDma _ _ => true
  | _ => false

/-- Run one operation on memory and register state. -/
def Op.run (P : Periph σ) (fuel dummy : Nat) (inst : SPIMaster) :
    Op → Mem × HW σ → Option (Mem × HW σ)
  | Op.transfer b, (m, s) => (SPI.transfer P fuel b s).map (fun r => (m, r.2))
  | Op.transferBuf txbuf rxbuf len, ms => SPI.transferBuf P fuel txbuf rxbuf len ms
  | Op.transferTable table, (m, s) =>
      (SPI.transferTable P fuel m table s).map (fun s1 => (m, s1))
  | Op.dmaInProgress, ms => some ms
  | Op.transferDma txbuf rxbuf len, (m, s) => some (m, SPI.transferDma inst txbuf rxbuf len s)
  | Op.txDma txbuf len, (m, s) => some (m, SPI.txDma dummy inst txbuf len s)

/-- Run a sequence of operations, in order. -/
def runOps (P : Periph σ) (fuel dummy : Nat) (inst : SPIMaster) :
    List Op → Mem × HW σ → Option (Mem × HW σ)
  | [], ms => some ms
  | op :: ops, ms =>
    match op.run P fuel dummy inst ms with
    | none => none
    | some ms1 => runOps P fuel dummy inst ops ms1

/-! ## Sample inputs -/

/-- An idle bus instance on the loopback peripheral, as `init` leaves it. -/
def idle : HW Loop :=
  { dev := { data := 0, rxne := false, wait := 0 }, CR1 := 0x44, CR2 := 0x4,
    rx := { CCR := 0, CNDTR := 0, CPAR := 0x4001300C, CMAR := 0 },
    tx := { CCR := 0, CNDTR := 0, CPAR := 0x4001300C, CMAR := 0 },
    csn := true, trace := [] }

/-- The instance for `SPI1` after `init`, with a completion callback registered. -/
def spi1 : SPIMaster :=
  { hw := HwId.SPI1, dmaPriorityBits := 1 <<< 12, dmaRxChan := (DmaCtl.DMA1, 1),
    dmaTxChan := (DmaCtl.DMA1, 2), completionCB := some 0x08001234, completionParam := 0x20000010 }

/-- The instance for `SPI2` after `init`, without a completion callback. -/
def spi2 : SPIMaster :=
  { hw := HwId.SPI2, dmaPriorityBits := 2 <<< 12, dmaRxChan := (DmaCtl.DMA1, 3),
    dmaTxChan := (DmaCtl.DMA1, 4), completionCB := none, completionParam := 0 }

/-- A peripheral whose status register always reads `0x43` (overrun set,
RX-not-empty set, TX-empty set) and whose data register always reads `0xAB`. -/
def overrunDev : Periph Unit where
  wrDR := fun d _ => d
  rdSR := fun d => (0x43, d)
  rdDR := fun d => (0xAB, d)

/-- A bus instance on `overrunDev` with both DMA enables set. -/
def inFlight : HW Unit :=
  { dev := (), CR1 := 0x44, CR2 := 0x7,
    rx := { CCR := 0x100B, CNDTR := 0, CPAR := 0x4001300C, CMAR := 0x20000300 },
    tx := { CCR := 0x1099, CNDTR := 0, CPAR := 0x4001300C, CMAR := 0x20000100 },
    csn := false, trace := [] }

/-- Memory that holds the bytes `bs` from address 0 on, and zero elsewhere. -/
def memOf (bs : List Nat) : Mem := fun a => bs.getD a 0

/-- The framed sequence `[2, 0x11, 0x22, 0, 3, 0x01, 0x02, 0x03, 0]`. -/
def sampleTable : List Nat := [2, 0x11, 0x22, 0, 3, 0x01, 0x02, 0x03, 0]

/-! ## Auxiliary facts -/

theorem lor_rx_bits (p : Nat) : p ||| 128 ||| 8 ||| 2 ||| 1 = p ||| 139 := by
  simp [Nat.lor_assoc]

theorem lor_tx_bits (p : Nat) : p ||| 128 ||| 16 ||| 8 ||| 1 = p ||| 153 := by
  simp [Nat.lor_assoc]

theorem lor_rx_dummy_bits (p : Nat) : p ||| 8 ||| 2 ||| 1 = p ||| 11 := by
  simp [Nat.lor_assoc]

/-- A priority tag confined to bits 12 and 13 has no bit below bit 12. -/
theorem prio_low_bits (p i : Nat) (hp : p &&& 0x3000 = p) (hi : i < 12) :
    p.testBit i = false := by
  rw [← hp, Nat.testBit_and]
  have : Nat.testBit 0x3000 i = false := by
    interval_cases i <;> decide
  simp [this]

theorem testBit_lor_set (p c i : Nat) (h : Nat.testBit c i = true) :
    (p ||| c).testBit i = true := by
  simp [Nat.testBit_or, h]

theorem testBit_lor_clear (p c i : Nat) (hp : p &&& 0x3000 = p) (hi : i < 12)
    (h : Nat.testBit c i = false) : (p ||| c).testBit i = false := by
  simp [Nat.testBit_or, h, prio_low_bits p i hp hi]

theorem testBit_land_clear (p c i : Nat) (h : Nat.testBit c i = false) :
    (p &&& c).testBit i = false := by
  simp [Nat.testBit_and, h]

theorem and3_ne_zero_iff (c : Nat) :
    c &&& 3 ≠ 0 ↔ (c.testBit 0 = true ∨ c.testBit 1 = true) := by
  have h : c &&& 3 = c % 4 := Nat.and_pow_two_sub_one_eq_mod c 2
  rw [h]
  simp only [Nat.testBit_to_div_mod, decide_eq_true_eq]
  omega

theorem and64_ne_zero_iff (v : Nat) : v &&& (1 <<< 6) ≠ 0 ↔ v.testBit 6 = true := by
  have h64 : (1 <<< 6 : Nat) = 2 ^ 6 := by decide
  rw [h64]
  constructor
  · intro h
    by_contra hb
    apply h
    apply Nat.eq_of_testBit_eq
    intro i
    rw [Nat.testBit_and, Nat.testBit_two_pow]
    by_cases hi : 6 = i
    · subst hi; simp [hb]
    · simp [hi]
  · intro hb h
    have := congrArg (fun x => Nat.testBit x 6) h
    simp only [Nat.testBit_and, hb, Bool.true_and, Nat.zero_testBit] at this
    exact absurd this (by decide)

theorem dmaInProgress_iff (s : HW σ) :
    dmaInProgress s = true ↔ (s.CR2.testBit 0 = true ∨ s.CR2.testBit 1 = true) := by
  unfold dmaInProgress
  rw [decide_eq_true_iff]
  exact and3_ne_zero_iff s.CR2

theorem dmaCallback_trace_eq (P : Periph σ) (inst : SPIMaster) (flags : Nat) (s : HW σ) :
    (dmaCallback P inst flags s).trace
      = s.trace ++ ([Ev.rdSR (P.rdSR s.dev).1]
          ++ (if (P.rdSR s.dev).1 &&& (1 <<< 6) ≠ 0
                then [Ev.rdDR (P.rdDR (P.rdSR s.dev).2).1] else [])
          ++ [Ev.wrTxCCR 0, Ev.wrRxCCR 0, Ev.rdCR2 s.CR2, Ev.wrCR2 (s.CR2 &&& 0xFFFFFFFC)]
          ++ callEvents inst) := by
  by_cases h : (P.rdSR s.dev).1 &&& 64 = 0 <;>
    cases hc : inst.completionCB <;> simp [dmaCallback, callEvents, HW.log, h, hc]

theorem dmaCallback_regs (P : Periph σ) (inst : SPIMaster) (flags : Nat) (s : HW σ) :
    (dmaCallback P inst flags s).rx = { s.rx with CCR := 0 }
    ∧ (dmaCallback P inst flags s).tx = { s.tx with CCR := 0 }
    ∧ (dmaCallback P inst flags s).CR2 = s.CR2 &&& 0xFFFFFFFC
    ∧ (dmaCallback P inst flags s).CR1 = s.CR1
    ∧ (dmaCallback P inst flags s).csn = s.csn := by
  by_cases h : (P.rdSR s.dev).1 &&& 64 = 0 <;>
    cases hc : inst.completionCB <;> simp [dmaCallback, HW.log, h, hc]

theorem pollRXNE_mono (P : Periph σ) {f : Nat} : ∀ {s s' : HW σ} {f' : Nat},
    pollRXNE P f s = some s' → f ≤ f' → pollRXNE P f' s = some s' := by
  induction f with
  | zero => intro s s' f' h; simp [pollRXNE] at h
  | succ n ih =>
    intro s s' f' h hle
    obtain ⟨k, rfl⟩ : ∃ k, f' = k + 1 := ⟨f' - 1, by omega⟩
    simp only [pollRXNE] at h ⊢
    split_ifs at h ⊢ with hc
    · exact ih h (by omega)
    · exact h

theorem pollRXNE_spec (P : Periph σ) {f : Nat} : ∀ {s s' : HW σ},
    pollRXNE P f s = some s' →
    ∃ evs, s' = { s with dev := s'.dev, trace := s.trace ++ evs }
      ∧ ∀ e ∈ evs, e.isSRRead = true := by
  induction f with
  | zero => intro s s' h; simp [pollRXNE] at h
  | succ n ih =>
    intro s s' h
    simp only [pollRXNE] at h
    split_ifs at h with hc
    · obtain ⟨evs, h1, h2⟩ := ih h
      refine ⟨Ev.rdSR (P.rdSR s.dev).1 :: evs, ?_, ?_⟩
      · rw [h1]; simp [HW.log]
      · intro e he
        rcases List.mem_cons.mp he with rfl | he
        · rfl
        · exact h2 e he
    · refine ⟨[Ev.rdSR (P.rdSR s.dev).1], ?_, ?_⟩
      · cases h; simp [HW.log]
      · intro e he
        rcases List.mem_cons.mp he with rfl | he
        · rfl
        · cases he

theorem pollRXNE_of_rxneWithin (P : Periph σ) {n : Nat} : ∀ (s : HW σ),
    rxneWithin P n s.dev = true → ∃ s', pollRXNE P n s = some s' := by
  induction n with
  | zero => intro s h; simp [rxneWithin] at h
  | succ n ih =>
    intro s h
    simp only [rxneWithin] at h
    simp only [pollRXNE]
    split_ifs at h ⊢ with hc
    · exact ih _ h
    · exact ⟨_, rfl⟩

theorem transfer_mono (P : Periph σ) {f f' b : Nat} {s : HW σ} {r : Nat × HW σ}
    (h : transfer P f b s = some r) (hle : f ≤ f') : transfer P f' b s = some r := by
  simp only [transfer] at h ⊢
  cases hp : pollRXNE P f ({ s with dev := P.wrDR s.dev b }.log (Ev.wrDR b)) with
  | none => simp [hp] at h
  | some s2 =>
    rw [pollRXNE_mono P hp hle]
    rw [hp] at h
    exact h

theorem transfer_spec (P : Periph σ) {f b : Nat} {s s' : HW σ} {r : Nat}
    (h : transfer P f b s = some (r, s')) :
    ∃ polls v, s' = { s with dev := s'.dev,
                             trace := s.trace ++ Ev.wrDR b :: (polls ++ [Ev.rdDR v]) }
      ∧ (∀ e ∈ polls, e.isSRRead = true) ∧ r = v % 256 := by
  simp only [transfer] at h
  cases hp : pollRXNE P f ({ s with dev := P.wrDR s.dev b }.log (Ev.wrDR b)) with
  | none => simp [hp] at h
  | some s2 =>
    simp only [hp, Option.some.injEq, Prod.mk.injEq] at h
    obtain ⟨evs, h1, h2⟩ := pollRXNE_spec P hp
    refine ⟨evs, (P.rdDR s2.dev).1, ?_, h2, h.1.symm⟩
    rw [← h.2, h1]
    simp [HW.log]

theorem transfer_terminates (P : Periph σ) (hP : Answers P) (b : Nat) (s : HW σ) :
    ∃ F r, transfer P F b s = some r := by
  obtain ⟨n, hn⟩ := hP s.dev b
  obtain ⟨s2, h2⟩ := pollRXNE_of_rxneWithin P
    ({ s with dev := P.wrDR s.dev b }.log (Ev.wrDR b)) (by simpa [HW.log] using hn)
  refine ⟨n, ?_⟩
  simp only [transfer, h2]
  exact ⟨_, rfl⟩

theorem payloadSpec_mono (P : Periph σ) {f f' : Nat} (hle : f ≤ f') : ∀ (bs : List Nat)
    {s s' : HW σ}, payloadSpec P f bs s = some s' → payloadSpec P f' bs s = some s' := by
  intro bs
  induction bs with
  | nil => intro s s' h; simpa [payloadSpec] using h
  | cons b bs ih =>
    intro s s' h
    simp only [payloadSpec] at h ⊢
    cases ht : transfer P f b s with
    | none => simp [ht] at h
    | some r =>
      rw [transfer_mono P ht hle]
      rw [ht] at h
      exact ih h

theorem payloadSpec_terminates (P : Periph σ) (hP : Answers P) : ∀ (bs : List Nat) (s : HW σ),
    ∃ F s', payloadSpec P F bs s = some s' := by
  intro bs
  induction bs with
  | nil => intro s; exact ⟨0, s, rfl⟩
  | cons b bs ih =>
    intro s
    obtain ⟨F1, r, h1⟩ := transfer_terminates P hP b s
    obtain ⟨F2, s', h2⟩ := ih r.2
    refine ⟨max F1 F2, s', ?_⟩
    simp only [payloadSpec]
    rw [transfer_mono P h1 (le_max_left F1 F2)]
    exact payloadSpec_mono P (le_max_right F1 F2) bs h2

theorem framesSpec_mono (P : Periph σ) {f f' : Nat} (hle : f ≤ f') : ∀ (fs : List (List Nat))
    {s s' : HW σ}, framesSpec P f fs s = some s' → framesSpec P f' fs s = some s' := by
  intro fs
  induction fs with
  | nil => intro s s' h; simpa [framesSpec] using h
  | cons b bs ih =>
    intro s s' h
    simp only [framesSpec] at h ⊢
    cases ht : payloadSpec P f b (begin s) with
    | none => simp [ht] at h
    | some r =>
      rw [payloadSpec_mono P hle b ht]
      rw [ht] at h
      exact ih h

theorem framesSpec_terminates (P : Periph σ) (hP : Answers P) : ∀ (fs : List (List Nat))
    (s : HW σ), ∃ F s', framesSpec P F fs s = some s' := by
  intro fs
  induction fs with
  | nil => intro s; exact ⟨0, s, rfl⟩
  | cons b bs ih =>
    intro s
    obtain ⟨F1, r, h1⟩ := payloadSpec_terminates P hP b (begin s)
    obtain ⟨F2, s', h2⟩ := ih (end_ r)
    refine ⟨max F1 F2, s', ?_⟩
    simp only [framesSpec]
    rw [payloadSpec_mono P (le_max_left F1 F2) b h1]
    exact framesSpec_mono P (le_max_right F1 F2) bs h2

theorem TableAt_append (m : Mem) : ∀ (xs ys : List Nat) (p : Nat),
    TableAt m p (xs ++ ys) ↔ TableAt m p xs ∧ TableAt m (p + xs.length) ys := by
  intro xs
  induction xs with
  | nil => intro ys p; simp [TableAt]
  | cons x xs ih =>
    intro ys p
    have e : p + (xs.length + 1) = p + 1 + xs.length := by omega
    rw [List.cons_append, TableAt, TableAt, ih, List.length_cons, e, and_assoc]

theorem payloadLoop_eq (P : Periph σ) (fuel : Nat) (m : Mem) : ∀ (bs : List Nat) (b k table : Nat)
    (s : HW σ), TableAt m table (b :: bs) → (b :: bs).length < 256 → (b :: bs).length ≤ k →
    payloadLoop P fuel m k (b :: bs).length table s
      = (payloadSpec P fuel (b :: bs) s).map (fun s' => (table + (b :: bs).length, s')) := by
  intro bs
  induction bs with
  | nil =>
    intro b k table s hT _ hk
    obtain ⟨k, rfl⟩ : ∃ j, k = j + 1 := ⟨k - 1, by simp at hk; omega⟩
    simp only [TableAt] at hT
    simp only [payloadLoop, payloadSpec, hT.1, List.length_singleton]
    cases transfer P fuel b s with
    | none => rfl
    | some r => simp
  | cons c bs ih =>
    intro b k table s hT hlen hk
    obtain ⟨k, rfl⟩ : ∃ j, k = j + 1 := ⟨k - 1, by simp at hk; omega⟩
    have hT' := hT
    simp only [TableAt] at hT
    rw [payloadLoop, payloadSpec, hT.1]
    cases ht : transfer P fuel b s with
    | none => rfl
    | some r =>
      obtain ⟨r1, s1⟩ := r
      simp only [List.length_cons] at hlen hk ⊢
      have e : (bs.length + 1 + 1 + 255) % 256 = bs.length + 1 := by omega
      simp only [e]
      have := ih c k (table + 1) s1 (by simp only [TableAt]; exact hT.2)
        (by simp only [List.length_cons]; omega) (by simp only [List.length_cons]; omega)
      simp only [List.length_cons] at this
      rw [if_pos (by omega), this]
      have e2 : table + 1 + (bs.length + 1) = table + (bs.length + 1 + 1) := by omega
      rw [e2]

theorem tableLoop_eq (P : Periph σ) (fuel : Nat) (m : Mem) (hfuel : 256 ≤ fuel) :
    ∀ (fs : List (List Nat)) (k table : Nat) (s : HW σ),
    (∀ f ∈ fs, 0 < f.length ∧ f.length < 256) → TableAt m table (encodeTable fs) →
    fs.length < k → tableLoop P fuel m k table s = framesSpec P fuel fs s := by
  intro fs
  induction fs with
  | nil =>
    intro k table s _ hT hk
    obtain ⟨k, rfl⟩ : ∃ j, k = j + 1 := ⟨k - 1, by omega⟩
    simp only [encodeTable, TableAt] at hT
    simp [tableLoop, framesSpec, hT.1]
  | cons f fs ih =>
    intro k table s hwf hT hk
    obtain ⟨k, rfl⟩ : ∃ j, k = j + 1 := ⟨k - 1, by omega⟩
    have hf := hwf f (List.mem_cons_self _ _)
    simp only [encodeTable, TableAt] at hT
    obtain ⟨hlen, hrest⟩ := hT
    rw [TableAt_append] at hrest
    obtain ⟨hpay, htail⟩ := hrest
    obtain ⟨b, bs, rfl⟩ : ∃ b bs, f = b :: bs := by
      cases f with
      | nil => simp at hf
      | cons b bs => exact ⟨b, bs, rfl⟩
    rw [tableLoop, framesSpec, hlen, if_pos (by omega)]
    dsimp only
    rw [payloadLoop_eq P fuel m bs b fuel (table + 1) (begin s) hpay hf.2 (by omega)]
    cases hp : payloadSpec P fuel (b :: bs) (begin s) with
    | none => rfl
    | some s1 =>
      simp only [Option.map_some']
      exact ih k _ (end_ s1) (fun g hg => hwf g (List.mem_cons_of_mem _ hg)) htail
        (by simp at hk; omega)

theorem filter_polls (q : Ev → Bool) (hq : ∀ e, e.isSRRead = true → q e = false)
    (polls : List Ev) (h : ∀ e ∈ polls, e.isSRRead = true) : polls.filter q = [] := by
  rw [List.filter_eq_nil_iff]
  intro e he
  simp [hq e (h e he)]

theorem isFrameCmd_of_isSRRead (e : Ev) (h : e.isSRRead = true) : e.isFrameCmd = false := by
  cases e <;> simp_all [Ev.isSRRead, Ev.isFrameCmd]

theorem isDRRead_of_isSRRead (e : Ev) (h : e.isSRRead = true) : e.isDRRead = false := by
  cases e <;> simp_all [Ev.isSRRead, Ev.isDRRead]

theorem payloadSpec_spec (P : Periph σ) {f : Nat} : ∀ (bs : List Nat) {s s' : HW σ},
    payloadSpec P f bs s = some s' →
    ∃ evs, s' = { s with dev := s'.dev, trace := s.trace ++ evs }
      ∧ evs.filter Ev.isFrameCmd = bs.map Ev.wrDR
      ∧ (evs.filter Ev.isDRRead).length = bs.length
      ∧ ∀ e ∈ evs, e.isBlocking = true := by
  intro bs
  induction bs with
  | nil =>
    intro s s' h
    simp only [payloadSpec, Option.some.injEq] at h
    subst h
    exact ⟨[], by simp, rfl, rfl, by simp⟩
  | cons b bs ih =>
    intro s s' h
    simp only [payloadSpec] at h
    cases ht : transfer P f b s with
    | none => simp [ht] at h
    | some r =>
      obtain ⟨r1, s1⟩ := r
      rw [ht] at h
      obtain ⟨polls, v, e1, hpolls, _⟩ := transfer_spec P ht
      obtain ⟨evs, e2, hcmd, hrd, hall⟩ := ih h
      refine ⟨Ev.wrDR b :: (polls ++ [Ev.rdDR v]) ++ evs, ?_, ?_, ?_, ?_⟩
      · rw [e2, e1]; simp
      · simp [List.filter_cons, List.filter_append, Ev.isFrameCmd, hcmd,
          filter_polls _ isFrameCmd_of_isSRRead polls hpolls]
      · simp [List.filter_cons, List.filter_append, Ev.isDRRead, hrd,
          filter_polls _ isDRRead_of_isSRRead polls hpolls]
      · intro e he
        simp only [List.cons_append, List.mem_cons, List.mem_append, List.mem_singleton,
          List.append_assoc] at he
        rcases he with rfl | he | rfl | he | he
        · rfl
        · simp [Ev.isBlocking, hpolls e he]
        · rfl
        · cases he
        · exact hall e he

theorem framesSpec_spec (P : Periph σ) {f : Nat} : ∀ (fs : List (List Nat)) {s s' : HW σ},
    framesSpec P f fs s = some s' →
    ∃ evs, s' = { s with dev := s'.dev, csn := bif fs.isEmpty then s.csn else true,
                         trace := s.trace ++ evs }
      ∧ evs.filter Ev.isFrameCmd = frameCmds fs
      ∧ (evs.filter Ev.isDRRead).length = (fs.map List.length).sum
      ∧ ∀ e ∈ evs, e.isBlocking = true := by
  intro fs
  induction fs with
  | nil =>
    intro s s' h
    simp only [framesSpec, Option.some.injEq] at h
    subst h
    exact ⟨[], by simp, rfl, rfl, by simp⟩
  | cons g fs ih =>
    intro s s' h
    simp only [framesSpec] at h
    cases hp : payloadSpec P f g (begin s) with
    | none => simp [hp] at h
    | some s1 =>
      rw [hp] at h
      obtain ⟨evs1, e1, hcmd1, hrd1, hall1⟩ := payloadSpec_spec P g hp
      obtain ⟨evs2, e2, hcmd2, hrd2, hall2⟩ := ih h
      refine ⟨Ev.csnLow :: (evs1 ++ Ev.csnHigh :: evs2), ?_, ?_, ?_, ?_⟩
      · rw [e2, e1]
        cases fs <;> simp [begin, end_, HW.log]
      · simp [List.filter_cons, List.filter_append, Ev.isFrameCmd, hcmd1, hcmd2, frameCmds]
      · simp [List.filter_cons, List.filter_append, Ev.isDRRead, hrd1, hrd2]
      · intro e he
        simp only [List.mem_cons, List.mem_append] at he
        rcases he with rfl | he | rfl | he
        · rfl
        · exact hall1 e he
        · rfl
        · exact hall2 e he

theorem store8_mod (m : Mem) (a v : Nat) : store8 m a (v % 256) = store8 m a v := by
  funext x
  simp [store8, Nat.mod_mod]

theorem transferBuf_eq_seq (P : Periph σ) (fuel : Nat) : ∀ (len txbuf rxbuf : Nat) (m : Mem)
    (s : HW σ), transferBuf P fuel txbuf rxbuf len (m, s) = transferSeq P fuel txbuf rxbuf len (m, s) := by
  intro len
  induction len with
  | zero => intro txbuf rxbuf m s; rfl
  | succ n ih =>
    intro txbuf rxbuf m s
    simp only [transferBuf, transferSeq, transfer]
    cases pollRXNE P fuel ({ s with dev := P.wrDR s.dev (load8 m txbuf) }.log
        (Ev.wrDR (load8 m txbuf))) with
    | none => rfl
    | some s2 =>
      simp only [store8_mod]
      exact ih _ _ _ _

theorem transferSeq_mono (P : Periph σ) {f f' : Nat} (hle : f ≤ f') : ∀ (len txbuf rxbuf : Nat)
    {ms ms' : Mem × HW σ}, transferSeq P f txbuf rxbuf len ms = some ms' →
      transferSeq P f' txbuf rxbuf len ms = some ms' := by
  intro len
  induction len with
  | zero => intro txbuf rxbuf ms ms' h; simpa [transferSeq] using h
  | succ n ih =>
    intro txbuf rxbuf ms ms' h
    obtain ⟨m, s⟩ := ms
    simp only [transferSeq] at h ⊢
    cases ht : transfer P f (load8 m txbuf) s with
    | none => simp [ht] at h
    | some r =>
      rw [transfer_mono P ht hle]
      rw [ht] at h
      exact ih _ _ h

theorem transferSeq_terminates (P : Periph σ) (hP : Answers P) : ∀ (len txbuf rxbuf : Nat)
    (ms : Mem × HW σ), ∃ F ms', transferSeq P F txbuf rxbuf len ms = some ms' := by
  intro len
  induction len with
  | zero => intro txbuf rxbuf ms; exact ⟨0, ms, rfl⟩
  | succ n ih =>
    intro txbuf rxbuf ms
    obtain ⟨m, s⟩ := ms
    obtain ⟨F1, r, h1⟩ := transfer_terminates P hP (load8 m txbuf) s
    obtain ⟨F2, ms', h2⟩ := ih (txbuf + 1) (rxbuf + 1) (store8 m rxbuf r.1, r.2)
    refine ⟨max F1 F2, ms', ?_⟩
    simp only [transferSeq]
    rw [transfer_mono P h1 (le_max_left F1 F2)]
    exact transferSeq_mono P (le_max_right F1 F2) _ _ _ h2

theorem memAfter_zero (m : Mem) (rxbuf : Nat) (rs : List Nat) : memAfter m rxbuf rs 0 = m := by
  funext a
  simp only [memAfter]
  rw [if_neg (by omega)]

theorem memAfter_store8 (m : Mem) (rxbuf v : Nat) (rs : List Nat) (n : Nat) :
    memAfter (store8 m rxbuf v) (rxbuf + 1) rs n = memAfter m rxbuf (v :: rs) (n + 1) := by
  funext a
  simp only [memAfter, store8]
  by_cases h1 : rxbuf + 1 ≤ a ∧ a < rxbuf + 1 + n
  · rw [if_pos h1, if_pos (by omega)]
    obtain ⟨k, hk⟩ : ∃ k, a - rxbuf = k + 1 := ⟨a - rxbuf - 1, by omega⟩
    have hk' : a - (rxbuf + 1) = k := by omega
    rw [hk, hk', List.getD_cons_succ]
  · rw [if_neg h1]
    by_cases h2 : a = rxbuf
    · subst h2
      rw [if_pos rfl, if_pos (by omega)]
      simp
    · rw [if_neg h2, if_neg (by omega)]

theorem transferSeq_spec (P : Periph σ) {f : Nat} : ∀ (len txbuf rxbuf : Nat) {m m' : Mem}
    {s s' : HW σ}, transferSeq P f txbuf rxbuf len (m, s) = some (m', s') →
    ∃ (xs : List (Nat × Nat)) (evs : List Ev), xs.length = len
      ∧ s' = { s with dev := s'.dev, trace := s.trace ++ evs }
      ∧ evs.filter (fun e => !e.isSRRead) = exchangeEvents xs
      ∧ (∀ e ∈ evs, e.isBlocking = true)
      ∧ m' = memAfter m rxbuf (xs.map Prod.snd) len
      ∧ ∀ i, i < len →
          (xs.map Prod.fst).getD i 0 = load8 (memAfter m rxbuf (xs.map Prod.snd) i) (txbuf + i) := by
  intro len
  induction len with
  | zero =>
    intro txbuf rxbuf m m' s s' h
    simp only [transferSeq, Option.some.injEq, Prod.mk.injEq] at h
    obtain ⟨rfl, rfl⟩ := h
    exact ⟨[], [], rfl, by simp, rfl, by simp, (memAfter_zero _ _ _).symm, by omega⟩
  | succ n ih =>
    intro txbuf rxbuf m m' s s' h
    simp only [transferSeq] at h
    cases ht : transfer P f (load8 m txbuf) s with
    | none => simp [ht] at h
    | some r =>
      obtain ⟨r1, s1⟩ := r
      rw [ht] at h
      obtain ⟨polls, v, e1, hpolls, hr⟩ := transfer_spec P ht
      obtain ⟨xs, evs, hlen, e2, hex, hall, hm, hw⟩ := ih _ _ h
      subst hr
      rw [store8_mod, memAfter_store8] at hm
      refine ⟨(load8 m txbuf, v) :: xs,
        Ev.wrDR (load8 m txbuf) :: (polls ++ [Ev.rdDR v]) ++ evs, by simp [hlen], ?_, ?_, ?_,
        by simpa using hm, ?_⟩
      · rw [e2, e1]; simp
      · have hp : polls.filter (fun e => !e.isSRRead) = [] :=
          filter_polls _ (fun e he => by simp [he]) polls hpolls
        simp only [List.cons_append, List.append_assoc, List.filter_cons, List.filter_append,
          hp, hex, List.filter_nil, List.nil_append, exchangeEvents]
        rfl
      · intro e he
        simp only [List.cons_append, List.mem_cons, List.mem_append, List.mem_singleton,
          List.append_assoc] at he
        rcases he with rfl | he | rfl | he | he
        · rfl
        · simp [Ev.isBlocking, hpolls e he]
        · rfl
        · cases he
        · exact hall e he
      · intro i hi
        cases i with
        | zero => simp [memAfter_zero]
        | succ j =>
          have := hw j (by omega)
          rw [store8_mod, memAfter_store8] at this
          simp only [List.map_cons, List.getD_cons_succ]
          rw [this]
          congr 1
          omega

theorem transfer_ctl (P : Periph σ) {f b : Nat} {s : HW σ} {r : Nat × HW σ}
    (h : transfer P f b s = some r) : r.2.CR2 = s.CR2 := by
  obtain ⟨r1, s1⟩ := r
  obtain ⟨polls, v, e, _, _⟩ := transfer_spec P h
  rw [e]

theorem payloadLoop_ctl (P : Periph σ) (fuel : Nat) (m : Mem) : ∀ (k len table : Nat) {s : HW σ}
    {r : Nat × HW σ}, payloadLoop P fuel m k len table s = some r → r.2.CR2 = s.CR2 := by
  intro k
  induction k with
  | zero => intro len table s r h; simp [payloadLoop] at h
  | succ k ih =>
    intro len table s r h
    rw [payloadLoop] at h
    cases ht : transfer P fuel (load8 m table) s with
    | none => simp [ht] at h
    | some r1 =>
      obtain ⟨v, s1⟩ := r1
      rw [ht] at h
      dsimp only at h
      have h1 : s1.CR2 = s.CR2 := transfer_ctl P ht
      split_ifs at h with hc
      · rw [ih _ _ h, h1]
      · cases h
        exact h1

theorem tableLoop_ctl (P : Periph σ) (fuel : Nat) (m : Mem) : ∀ (k table : Nat) {s s' : HW σ},
    tableLoop P fuel m k table s = some s' → s'.CR2 = s.CR2 := by
  intro k
  induction k with
  | zero => intro table s s' h; simp [tableLoop] at h
  | succ k ih =>
    intro table s s' h
    rw [tableLoop] at h
    dsimp only at h
    split_ifs at h with hc
    · cases hp : payloadLoop P fuel m fuel (load8 m table) (table + 1) (begin s) with
      | none => simp [hp] at h
      | some r =>
        obtain ⟨t, s1⟩ := r
        rw [hp] at h
        dsimp only at h
        have h1 : s1.CR2 = (begin s).CR2 := payloadLoop_ctl P fuel m _ _ _ hp
        have h2 := ih _ h
        rw [h2]
        simp only [end_, HW.log, h1, begin]
    · cases h
      rfl

theorem transferBuf_ctl (P : Periph σ) {f txbuf rxbuf len : Nat} {ms ms' : Mem × HW σ}
    (h : transferBuf P f txbuf rxbuf len ms = some ms') : ms'.2.CR2 = ms.2.CR2 := by
  obtain ⟨m, s⟩ := ms
  obtain ⟨m', s'⟩ := ms'
  rw [transferBuf_eq_seq] at h
  obtain ⟨xs, evs, _, e, _⟩ := transferSeq_spec P _ _ _ h
  dsimp only
  rw [e]

theorem transferDma_CR2 (inst : SPIMaster) (txbuf rxbuf len : Nat) (s : HW σ) :
    (transferDma inst txbuf rxbuf len s).CR2 = s.CR2 ||| 3 := by
  simp [transferDma, enableDma, HW.log]

theorem txDma_CR2 (dummy : Nat) (inst : SPIMaster) (txbuf len : Nat) (s : HW σ) :
    (txDma dummy inst txbuf len s).CR2 = s.CR2 ||| 3 := by
  simp [txDma, enableDma, HW.log]

theorem dmaInProgress_lor (s t : HW σ) (h : t.CR2 = s.CR2 ||| 3) : dmaInProgress t = true := by
  rw [dmaInProgress_iff, h]
  left
  simp [Nat.testBit_or]

theorem dmaInProgress_congr (s t : HW σ) (h : t.CR2 = s.CR2) :
    dmaInProgress t = dmaInProgress s := by
  simp [dmaInProgress, h]

theorem opRun_start (P : Periph σ) (fuel dummy : Nat) (inst : SPIMaster) (op : Op)
    (hs : op.isStart = true) (ms : Mem × HW σ) :
    ∃ ms', op.run P fuel dummy inst ms = some ms' ∧ dmaInProgress ms'.2 = true := by
  obtain ⟨m, s⟩ := ms
  cases op with
  | transferDma txbuf rxbuf len =>
    exact ⟨_, rfl, dmaInProgress_lor s _ (transferDma_CR2 inst txbuf rxbuf len s)⟩
  | txDma txbuf len =>
    exact ⟨_, rfl, dmaInProgress_lor s _ (txDma_CR2 dummy inst txbuf len s)⟩
  | _ => simp [Op.isStart] at hs

theorem opRun_other (P : Periph σ) (fuel dummy : Nat) (inst : SPIMaster) (op : Op)
    (hs : op.isStart = false) {ms ms' : Mem × HW σ}
    (h : op.run P fuel dummy inst ms = some ms') : ms'.2.CR2 = ms.2.CR2 := by
  obtain ⟨m, s⟩ := ms
  cases op with
  | transfer b =>
    simp only [Op.run, Option.map_eq_some'] at h
    obtain ⟨r, hr, rfl⟩ := h
    exact transfer_ctl P hr
  | transferBuf txbuf rxbuf len => exact transferBuf_ctl P h
  | transferTable table =>
    simp only [Op.run, Option.map_eq_some'] at h
    obtain ⟨r, hr, rfl⟩ := h
    exact tableLoop_ctl P fuel m _ _ hr
  | dmaInProgress =>
    simp only [Op.run, Option.some.injEq] at h
    rw [← h]
  | transferDma txbuf rxbuf len => simp [Op.isStart] at hs
  | txDma txbuf len => simp [Op.isStart] at hs

theorem opRun_keeps (P : Periph σ) (fuel dummy : Nat) (inst : SPIMaster) (op : Op)
    {ms ms' : Mem × HW σ} (h : op.run P fuel dummy inst ms = some ms')
    (hin : dmaInProgress ms.2 = true) : dmaInProgress ms'.2 = true := by
  cases hs : op.isStart with
  | true =>
    obtain ⟨ms1, h1, h2⟩ := opRun_start P fuel dummy inst op hs ms
    rw [h1] at h
    cases h
    exact h2
  | false =>
    rw [dmaInProgress_congr _ _ (opRun_other P fuel dummy inst op hs h)]
    exact hin

theorem runOps_keeps (P : Periph σ) (fuel dummy : Nat) (inst : SPIMaster) : ∀ (ops : List Op)
    {ms ms' : Mem × HW σ}, runOps P fuel dummy inst ops ms = some ms' →
    dmaInProgress ms.2 = true → dmaInProgress ms'.2 = true := by
  intro ops
  induction ops with
  | nil => intro ms ms' h hin; simp only [runOps, Option.some.injEq] at h; rw [← h]; exact hin
  | cons op ops ih =>
    intro ms ms' h hin
    simp only [runOps] at h
    cases h1 : op.run P fuel dummy inst ms with
    | none => simp [h1] at h
    | some ms1 =>
      rw [h1] at h
      exact ih h (opRun_keeps P fuel dummy inst op h1 hin)

theorem runOps_other (P : Periph σ) (fuel dummy : Nat) (inst : SPIMaster) : ∀ (ops : List Op)
    {ms ms' : Mem × HW σ}, (∀ op ∈ ops, op.isStart = false) →
    runOps P fuel dummy inst ops ms = some ms' → ms'.2.CR2 = ms.2.CR2 := by
  intro ops
  induction ops with
  | nil => intro ms ms' _ h; simp only [runOps, Option.some.injEq] at h; rw [← h]
  | cons op ops ih =>
    intro ms ms' hall h
    simp only [runOps] at h
    cases h1 : op.run P fuel dummy inst ms with
    | none => simp [h1] at h
    | some ms1 =>
      rw [h1] at h
      rw [ih (fun o ho => hall o (List.mem_cons_of_mem _ ho)) h]
      exact opRun_other P fuel dummy inst op (hall op (List.mem_cons_self _ _)) h1

theorem dmaCallback_idle (P : Periph σ) (inst : SPIMaster) (flags : Nat) (s : HW σ) :
    dmaInProgress (dmaCallback P inst flags s) = false := by
  have h := (dmaCallback_regs P inst flags s).2.2.1
  cases hb : dmaInProgress (dmaCallback P inst flags s) with
  | false => rfl
  | true =>
    rw [dmaInProgress_iff, h] at hb
    rcases hb with hb | hb
    · rw [testBit_land_clear _ _ _ (by decide)] at hb; cases hb
    · rw [testBit_land_clear _ _ _ (by decide)] at hb; cases hb

/-- Refinement and termination of the table transfer on a well-formed table. -/
theorem transferTable_frames (P : Periph σ) (hP : Answers P) (table : Nat)
    (fs : List (List Nat)) (s : HW σ)
    (hwf : ∀ f ∈ fs, 0 < f.length ∧ f.length < 256) :
    ∃ (F : Nat) (s' : HW σ) (evs : List Ev),
      (∀ (m : Mem) (fuel : Nat), TableAt m table (encodeTable fs) → F ≤ fuel →
        transferTable P fuel m table s = some s' ∧ framesSpec P fuel fs s = some s')
      ∧ s' = { s with dev := s'.dev, csn := bif fs.isEmpty then s.csn else true,
                      trace := s.trace ++ evs }
      ∧ evs.filter Ev.isFrameCmd = frameCmds fs
      ∧ (evs.filter Ev.isDRRead).length = (fs.map List.length).sum
      ∧ (∀ e ∈ evs, e.isBlocking = true)
      ∧ (fs = [] → s' = s) := by
  obtain ⟨F0, s', h0⟩ := framesSpec_terminates P hP fs s
  obtain ⟨evs, e, hcmd, hrd, hall⟩ := framesSpec_spec P fs h0
  refine ⟨max F0 (max 256 (fs.length + 1)), s', evs, ?_, e, hcmd, hrd, hall, ?_⟩
  · intro m fuel hT hfuel
    have h1 : F0 ≤ fuel := le_trans (le_max_left _ _) hfuel
    have h2 : 256 ≤ fuel := le_trans (le_trans (le_max_left _ _) (le_max_right _ _)) hfuel
    have h3 : fs.length + 1 ≤ fuel :=
      le_trans (le_trans (le_max_right _ _) (le_max_right _ _)) hfuel
    have hs := framesSpec_mono P h1 fs h0
    refine ⟨?_, hs⟩
    rw [transferTable, tableLoop_eq P fuel m h2 fs fuel table s hwf hT (by omega)]
    exact hs
  · intro hfs
    subst hfs
    simp only [framesSpec, Option.some.injEq] at h0
    exact h0.symm

theorem rxneWithin_loopback (delay : Nat) : ∀ (w data : Nat),
    rxneWithin (loopback delay) (w + 1) { data := data, rxne := true, wait := w } = true := by
  intro w
  induction w with
  | zero => intro data; simp [rxneWithin, loopback]
  | succ n ih =>
    intro data
    rw [rxneWithin]
    simp only [loopback, Nat.add_one_ne_zero, if_false, if_true, Nat.add_sub_cancel]
    exact ih data

theorem loopback_answers (delay : Nat) : Answers (loopback delay) := by
  intro d b
  exact ⟨delay + 1, rxneWithin_loopback delay delay b⟩

theorem transferSeq_frame (P : Periph σ) {f len txbuf rxbuf : Nat} {m m' : Mem} {s s' : HW σ}
    (h : transferSeq P f txbuf rxbuf len (m, s) = some (m', s')) (a : Nat)
    (ha : a < rxbuf ∨ rxbuf + len ≤ a) : m' a = m a := by
  obtain ⟨xs, evs, _, _, _, _, hm, _⟩ := transferSeq_spec P _ _ _ h
  rw [hm]
  simp only [memAfter]
  rw [if_neg (by omega)]

theorem load8_store8_ne (m : Mem) (a x v : Nat) (h : x ≠ a) :
    load8 (store8 m a v) x = load8 m x := by
  simp [load8, store8, h]

theorem transferSeq_inplace_sep (P : Periph σ) (fuel : Nat) : ∀ (len a txbuf rxbuf : Nat)
    (m1 m2 : Mem) (s : HW σ) (m1' : Mem) (s1 : HW σ),
    (∀ i, i < len → load8 m1 (a + i) = load8 m2 (txbuf + i)) →
    (txbuf + len ≤ rxbuf ∨ rxbuf + len ≤ txbuf) →
    transferSeq P fuel a a len (m1, s) = some (m1', s1) →
    ∃ m2', transferSeq P fuel txbuf rxbuf len (m2, s) = some (m2', s1)
      ∧ ∀ i, i < len → m1' (a + i) = m2' (rxbuf + i) := by
  intro len
  induction len with
  | zero =>
    intro a txbuf rxbuf m1 m2 s m1' s1 _ _ h
    simp only [transferSeq, Option.some.injEq, Prod.mk.injEq] at h
    exact ⟨m2, by rw [← h.2]; rfl, by omega⟩
  | succ n ih =>
    intro a txbuf rxbuf m1 m2 s m1' s1 hin hdis h
    simp only [transferSeq] at h ⊢
    have h0 : load8 m1 a = load8 m2 txbuf := by simpa using hin 0 (by omega)
    rw [← h0]
    cases ht : transfer P fuel (load8 m1 a) s with
    | none => simp [ht] at h
    | some r =>
      obtain ⟨r1, s2⟩ := r
      rw [ht] at h
      dsimp only at h ⊢
      obtain ⟨m2', h2, hsame⟩ := ih (a + 1) (txbuf + 1) (rxbuf + 1) (store8 m1 a r1)
        (store8 m2 rxbuf r1) s2 m1' s1
        (by
          intro i hi
          rw [load8_store8_ne _ _ _ _ (by omega), load8_store8_ne _ _ _ _ (by omega)]
          have := hin (i + 1) (by omega)
          rw [show a + 1 + i = a + (i + 1) by omega,
            show txbuf + 1 + i = txbuf + (i + 1) by omega]
          exact this)
        (by omega) h
      refine ⟨m2', h2, ?_⟩
      intro i hi
      cases i with
      | zero =>
        rw [Nat.add_zero, Nat.add_zero, transferSeq_frame P h a (by omega),
          transferSeq_frame P h2 rxbuf (by omega)]
        simp [store8]
      | succ j =>
        have := hsame j (by omega)
        rw [show a + (j + 1) = a + 1 + j by omega,
          show rxbuf + (j + 1) = rxbuf + 1 + j by omega]
        exact this

theorem pollRXNE_loopback_data (delay : Nat) {f : Nat} : ∀ {s s' : HW Loop},
    pollRXNE (loopback delay) f s = some s' → s'.dev.data = s.dev.data := by
  induction f with
  | zero => intro s s' h; simp [pollRXNE] at h
  | succ n ih =>
    intro s s' h
    simp only [pollRXNE] at h
    have hd : (((loopback delay).rdSR s.dev).2).data = s.dev.data := by
      simp only [loopback]
      split_ifs <;> rfl
    split_ifs at h with hc
    · rw [ih h]
      simpa [HW.log] using hd
    · cases h
      simpa [HW.log] using hd

theorem transfer_loopback (delay : Nat) {f b : Nat} {s : HW Loop} {r : Nat × HW Loop}
    (h : transfer (loopback delay) f b s = some r) : r.1 = b % 256 := by
  simp only [transfer] at h
  cases hp : pollRXNE (loopback delay) f
      ({ s with dev := (loopback delay).wrDR s.dev b }.log (Ev.wrDR b)) with
  | none => simp [hp] at h
  | some s2 =>
    rw [hp] at h
    simp only [Option.some.injEq] at h
    rw [← h]
    have := pollRXNE_loopback_data delay hp
    simp only [HW.log, loopback] at this
    simp only [loopback, this]

theorem transferSeq_loopback_echo (delay fuel : Nat) : ∀ (len txbuf rxbuf : Nat) (m m' : Mem)
    (s s' : HW Loop), (rxbuf ≤ txbuf ∨ txbuf + len ≤ rxbuf) →
    transferSeq (loopback delay) fuel txbuf rxbuf len (m, s) = some (m', s') →
    ∀ i, i < len → m' (rxbuf + i) = load8 m (txbuf + i) := by
  intro len
  induction len with
  | zero => intro txbuf rxbuf m m' s s' _ _ i hi; omega
  | succ n ih =>
    intro txbuf rxbuf m m' s s' hov h i hi
    simp only [transferSeq] at h
    cases ht : transfer (loopback delay) fuel (load8 m txbuf) s with
    | none => simp [ht] at h
    | some r =>
      obtain ⟨r1, s2⟩ := r
      rw [ht] at h
      dsimp only at h
      have hr : r1 = load8 m txbuf % 256 := transfer_loopback delay ht
      cases i with
      | zero =>
        rw [Nat.add_zero, Nat.add_zero, transferSeq_frame _ h rxbuf (by omega)]
        simp [store8, hr, load8]
      | succ j =>
        have := ih (txbuf + 1) (rxbuf + 1) _ m' s2 s' (by omega) h j (by omega)
        rw [show rxbuf + (j + 1) = rxbuf + 1 + j by omega,
          show txbuf + (j + 1) = txbuf + 1 + j by omega, this]
        exact load8_store8_ne _ _ _ _ (by omega)

/-! ## Verified properties -/

/-- C1: on a well-formed table (frames of a non-zero length byte `L` followed by
`L` payload bytes, ended by a zero length byte) and a peripheral that answers
every write, `transferTable` returns, and it does exactly what the frames say:
for each frame in table order `begin()`, one single-byte transfer per payload
byte in order, `end()`.  The outcome is the same for every memory that holds
the table, so no byte past the terminating zero is used.  For the table `[0]`
the state, chip-select and trace included, is left as it was. -/
theorem transferTable_runs_frames (P : Periph σ) (hP : Answers P) (table : Nat)
    (fs : List (List Nat)) (s : HW σ)
    (hwf : ∀ f ∈ fs, 0 < f.length ∧ f.length < 256) :
    ∃ (F : Nat) (s' : HW σ) (evs : List Ev),
      (∀ (m : Mem) (fuel : Nat), TableAt m table (encodeTable fs) → F ≤ fuel →
        transferTable P fuel m table s = some s' ∧ framesSpec P fuel fs s = some s')
      ∧ s' = { s with dev := s'.dev, csn := bif fs.isEmpty then s.csn else true,
                      trace := s.trace ++ evs }
      ∧ evs.filter Ev.isFrameCmd = frameCmds fs
      ∧ (evs.filter Ev.isDRRead).length = (fs.map List.length).sum
      ∧ (∀ e ∈ evs, e.isBlocking = true)
      ∧ (fs = [] → s' = s) :=
  transferTable_frames P hP table fs s hwf

theorem transferTable_runs_frames_witness :
    (∀ f ∈ [[0x11, 0x22], [0x01, 0x02, 0x03]], 0 < f.length ∧ f.length < 256)
    ∧ TableAt (memOf [2, 0x11, 0x22, 3, 0x01, 0x02, 0x03, 0]) 0
        (encodeTable [[0x11, 0x22], [0x01, 0x02, 0x03]])
    ∧ ∃ (F : Nat) (s' : HW Loop) (evs : List Ev),
      (∀ (m : Mem) (fuel : Nat),
        TableAt m 0 (encodeTable [[0x11, 0x22], [0x01, 0x02, 0x03]]) → F ≤ fuel →
        transferTable (loopback 1) fuel m 0 idle = some s'
          ∧ framesSpec (loopback 1) fuel [[0x11, 0x22], [0x01, 0x02, 0x03]] idle = some s')
      ∧ s' = { idle with dev := s'.dev,
                         csn := bif [[0x11, 0x22], [0x01, 0x02, 0x03]].isEmpty
                                  then idle.csn else true,
                         trace := idle.trace ++ evs }
      ∧ evs.filter Ev.isFrameCmd = frameCmds [[0x11, 0x22], [0x01, 0x02, 0x03]]
      ∧ (evs.filter Ev.isDRRead).length
          = ([[0x11, 0x22], [0x01, 0x02, 0x03]].map List.length).sum
      ∧ (∀ e ∈ evs, e.isBlocking = true)
      ∧ ([[0x11, 0x22], [0x01, 0x02, 0x03]] = [] → s' = idle) :=
  ⟨by decide, ⟨rfl, rfl, rfl, rfl, rfl, rfl, rfl, rfl, trivial⟩,
   transferTable_runs_frames (loopback 1) (loopback_answers 1) 0
     [[0x11, 0x22], [0x01, 0x02, 0x03]] idle (by decide)⟩

/-- C2, as stated, fails: on the loopback peripheral the framed sequence
`[2, 0x11, 0x22, 0, 3, 0x01, 0x02, 0x03, 0]` yields one bracketed frame, not
two.  The zero at index 3 is read as a length byte and ends the transfer. -/
theorem transferTable_sample_not_two_frames :
    transferTable (loopback 0) 300 (memOf sampleTable) 0 idle
      = some { idle with
          dev := { data := 0x22, rxne := false, wait := 0 },
          trace := [Ev.csnLow, Ev.wrDR 0x11, Ev.rdSR 1, Ev.rdDR 0x11,
                    Ev.wrDR 0x22, Ev.rdSR 1, Ev.rdDR 0x22, Ev.csnHigh] }
    ∧ [Ev.csnLow, Ev.wrDR 0x11, Ev.rdSR 1, Ev.rdDR 0x11,
        Ev.wrDR 0x22, Ev.rdSR 1, Ev.rdDR 0x22, Ev.csnHigh].filter Ev.isFrameCmd
        ≠ frameCmds [[0x11, 0x22], [0x01, 0x02, 0x03]]
    ∧ ¬ ∃ (F : Nat) (s' : HW Loop),
        (∀ fuel, F ≤ fuel →
          transferTable (loopback 0) fuel (memOf sampleTable) 0 idle = some s')
        ∧ s'.trace.filter Ev.isFrameCmd = frameCmds [[0x11, 0x22], [0x01, 0x02, 0x03]] := by
  refine ⟨by decide, by decide, ?_⟩
  rintro ⟨F, s', hrun, hcmd⟩
  obtain ⟨F0, s0, evs, h0, e0, hc0, _⟩ :=
    transferTable_frames (loopback 0) (loopback_answers 0) 0 [[0x11, 0x22]] idle (by decide)
  have hT : TableAt (memOf sampleTable) 0 (encodeTable [[0x11, 0x22]]) :=
    ⟨rfl, rfl, rfl, rfl, trivial⟩
  have h1 := (h0 (memOf sampleTable) (max F F0) hT (le_max_right _ _)).1
  rw [hrun (max F F0) (le_max_left _ _)] at h1
  simp only [Option.some.injEq] at h1
  rw [h1, e0] at hcmd
  simp only [idle, List.nil_append] at hcmd
  rw [hc0] at hcmd
  exact absurd hcmd (by decide)

/-- C2, amended: for the framed sequence `[2, 0x11, 0x22, 0, 3, 0x01, 0x02,
0x03, 0]` and a peripheral that answers every write, `transferTable` issues
exactly one bracketed frame, `{0x11, 0x22}`, preceded by a chip-select assert
and followed by a chip-select deassert, and stops at the zero at index 3: the
outcome is the same for every memory that agrees on the first four bytes. -/
theorem transferTable_sample_one_frame (P : Periph σ) (hP : Answers P) (table : Nat)
    (s : HW σ) :
    ∃ (F : Nat) (s' : HW σ) (evs : List Ev),
      (∀ (m : Mem) (fuel : Nat), TableAt m table sampleTable → F ≤ fuel →
        transferTable P fuel m table s = some s')
      ∧ (∀ (m : Mem) (fuel : Nat), TableAt m table [2, 0x11, 0x22, 0] → F ≤ fuel →
        transferTable P fuel m table s = some s')
      ∧ s' = { s with dev := s'.dev, csn := true, trace := s.trace ++ evs }
      ∧ evs.filter Ev.isFrameCmd = [Ev.csnLow, Ev.wrDR 0x11, Ev.wrDR 0x22, Ev.csnHigh]
      ∧ (evs.filter Ev.isDRRead).length = 2
      ∧ (∀ e ∈ evs, e.isBlocking = true) := by
  obtain ⟨F, s', evs, h, e, hc, hr, hall, _⟩ :=
    transferTable_frames P hP table [[0x11, 0x22]] s (by decide)
  refine ⟨F, s', evs, ?_, ?_, e, hc, hr, hall⟩
  · intro m fuel hT hF
    refine (h m fuel ?_ hF).1
    simp only [sampleTable, TableAt] at hT
    simp only [encodeTable, TableAt, List.length_cons, List.length_nil, List.cons_append,
      List.nil_append]
    exact ⟨hT.1, hT.2.1, hT.2.2.1, hT.2.2.2.1, trivial⟩
  · intro m fuel hT hF
    exact (h m fuel hT hF).1

theorem transferTable_sample_one_frame_witness :
    Answers (loopback 1)
    ∧ TableAt (memOf sampleTable) 0 sampleTable
    ∧ ∃ (F : Nat) (s' : HW Loop) (evs : List Ev),
      (∀ (m : Mem) (fuel : Nat), TableAt m 0 sampleTable → F ≤ fuel →
        transferTable (loopback 1) fuel m 0 idle = some s')
      ∧ (∀ (m : Mem) (fuel : Nat), TableAt m 0 [2, 0x11, 0x22, 0] → F ≤ fuel →
        transferTable (loopback 1) fuel m 0 idle = some s')
      ∧ s' = { idle with dev := s'.dev, csn := true, trace := idle.trace ++ evs }
      ∧ evs.filter Ev.isFrameCmd = [Ev.csnLow, Ev.wrDR 0x11, Ev.wrDR 0x22, Ev.csnHigh]
      ∧ (evs.filter Ev.isDRRead).length = 2
      ∧ (∀ e ∈ evs, e.isBlocking = true) :=
  ⟨loopback_answers 1, ⟨rfl, rfl, rfl, rfl, rfl, rfl, rfl, rfl, rfl, trivial⟩,
   transferTable_sample_one_frame (loopback 1) (loopback_answers 1) 0 idle⟩

/-- C3: on a peripheral that answers every write, the block transfer
`transfer(txbuf, rxbuf, len)` returns, and it is the same computation as `len`
successive calls `rxbuf[i] = transfer(txbuf[i])` of the single-byte transfer.
Its `DR` accesses are `len` exchanges (write, then read) in index order; the
`i`-th write is the byte at `txbuf[i]` when the `i`-th exchange starts, which is
the initial `txbuf[i]` when the buffers are the same, `rxbuf` starts at or below
`txbuf`, or they do not overlap; `rxbuf[i]` receives the low byte of the `i`-th
read; no other memory changes; with `len = 0` nothing changes. -/
theorem transferBuf_exchanges (P : Periph σ) (hP : Answers P) (txbuf rxbuf len : Nat)
    (m : Mem) (s : HW σ) :
    (∀ fuel, transferBuf P fuel txbuf rxbuf len (m, s)
              = transferSeq P fuel txbuf rxbuf len (m, s))
    ∧ ∃ (F : Nat) (m' : Mem) (s' : HW σ) (xs : List (Nat × Nat)) (evs : List Ev),
      (∀ fuel, F ≤ fuel → transferBuf P fuel txbuf rxbuf len (m, s) = some (m', s'))
      ∧ xs.length = len
      ∧ s' = { s with dev := s'.dev, trace := s.trace ++ evs }
      ∧ evs.filter (fun e => !e.isSRRead) = exchangeEvents xs
      ∧ m' = memAfter m rxbuf (xs.map Prod.snd) len
      ∧ (∀ i, i < len →
          (xs.map Prod.fst).getD i 0
            = load8 (memAfter m rxbuf (xs.map Prod.snd) i) (txbuf + i))
      ∧ ((rxbuf ≤ txbuf ∨ txbuf + len ≤ rxbuf) →
          ∀ i, i < len → (xs.map Prod.fst).getD i 0 = load8 m (txbuf + i))
      ∧ (∀ i, i < len → m' (rxbuf + i) = (xs.map Prod.snd).getD i 0 % 256)
      ∧ (∀ a, a < rxbuf ∨ rxbuf + len ≤ a → m' a = m a)
      ∧ (len = 0 → m' = m ∧ s' = s) := by
  refine ⟨fun fuel => transferBuf_eq_seq P fuel len txbuf rxbuf m s, ?_⟩
  obtain ⟨F, ⟨m', s'⟩, h⟩ := transferSeq_terminates P hP len txbuf rxbuf (m, s)
  obtain ⟨xs, evs, hlen, e, hex, _, hm, hw⟩ := transferSeq_spec P _ _ _ h
  refine ⟨F, m', s', xs, evs, ?_, hlen, e, hex, hm, hw, ?_, ?_, ?_, ?_⟩
  · intro fuel hF
    rw [transferBuf_eq_seq]
    exact transferSeq_mono P hF _ _ _ h
  · intro hov i hi
    rw [hw i hi]
    simp only [load8, memAfter]
    rw [if_neg (by omega)]
  · intro i hi
    rw [hm]
    simp only [memAfter]
    rw [if_pos (by omega), Nat.add_sub_cancel_left]
  · intro a ha
    exact transferSeq_frame P h a ha
  · intro h0
    subst h0
    simp only [transferSeq, Option.some.injEq, Prod.mk.injEq] at h
    exact ⟨h.1.symm, h.2.symm⟩

theorem transferBuf_exchanges_witness :
    Answers (loopback 2)
    ∧ ∃ (F : Nat) (m' : Mem) (s' : HW Loop) (xs : List (Nat × Nat)) (evs : List Ev),
      (∀ fuel, F ≤ fuel →
        transferBuf (loopback 2) fuel 0 16 3 (memOf [7, 8, 9], idle) = some (m', s'))
      ∧ xs.length = 3
      ∧ s' = { idle with dev := s'.dev, trace := idle.trace ++ evs }
      ∧ evs.filter (fun e => !e.isSRRead) = exchangeEvents xs
      ∧ m' = memAfter (memOf [7, 8, 9]) 16 (xs.map Prod.snd) 3
      ∧ (∀ i, i < 3 →
          (xs.map Prod.fst).getD i 0
            = load8 (memAfter (memOf [7, 8, 9]) 16 (xs.map Prod.snd) i) (0 + i))
      ∧ (((16 : Nat) ≤ 0 ∨ 0 + 3 ≤ 16) →
          ∀ i, i < 3 → (xs.map Prod.fst).getD i 0 = load8 (memOf [7, 8, 9]) (0 + i))
      ∧ (∀ i, i < 3 → m' (16 + i) = (xs.map Prod.snd).getD i 0 % 256)
      ∧ (∀ a, a < 16 ∨ 16 + 3 ≤ a → m' a = memOf [7, 8, 9] a)
      ∧ (3 = 0 → m' = memOf [7, 8, 9] ∧ s' = idle) :=
  ⟨loopback_answers 2,
   (transferBuf_exchanges (loopback 2) (loopback_answers 2) 0 16 3 (memOf [7, 8, 9]) idle).2⟩

/-- C4: `dmaInProgress()` is true exactly when bit 0 or bit 1 of `CR2` is set.
After `transferDma` or `txDma` it is true; it stays true across any sequence of
foreground operations (single-byte, block and table transfers, `dmaInProgress`
itself, further DMA starts) that returns; after `dmaCallback` it is false.
Operations that start no DMA transfer leave `CR2` as it is, so an idle instance
stays idle under them and only the dispatcher ends a transfer in flight. -/
theorem dma_in_flight_until_dispatch (P : Periph σ) (fuel dummy : Nat) (inst : SPIMaster)
    (start : Op) (ops : List Op) (flags : Nat) (m0 : Mem) (s0 : HW σ)
    (hstart : start.isStart = true) :
    (∀ s : HW σ, dmaInProgress s = true ↔ (s.CR2.testBit 0 = true ∨ s.CR2.testBit 1 = true))
    ∧ (∃ ms1, start.run P fuel dummy inst (m0, s0) = some ms1
        ∧ dmaInProgress ms1.2 = true
        ∧ ∀ ms2, runOps P fuel dummy inst ops ms1 = some ms2 →
            dmaInProgress ms2.2 = true
            ∧ dmaInProgress (dmaCallback P inst flags ms2.2) = false)
    ∧ (∀ s : HW σ, dmaInProgress (dmaCallback P inst flags s) = false)
    ∧ (∀ ms ms' : Mem × HW σ, (∀ op ∈ ops, op.isStart = false) →
        runOps P fuel dummy inst ops ms = some ms' →
          ms'.2.CR2 = ms.2.CR2 ∧ dmaInProgress ms'.2 = dmaInProgress ms.2) := by
  refine ⟨dmaInProgress_iff, ?_, dmaCallback_idle P inst flags, ?_⟩
  · obtain ⟨ms1, h1, h2⟩ := opRun_start P fuel dummy inst start hstart (m0, s0)
    refine ⟨ms1, h1, h2, ?_⟩
    intro ms2 hrun
    exact ⟨runOps_keeps P fuel dummy inst ops hrun h2, dmaCallback_idle P inst flags ms2.2⟩
  · intro ms ms' hall hrun
    have h := runOps_other P fuel dummy inst ops hall hrun
    exact ⟨h, dmaInProgress_congr _ _ h⟩

theorem dma_in_flight_until_dispatch_witness :
    (Op.txDma 0 9).isStart = true
    ∧ (runOps (loopback 1) 300 0x20000300 spi1
        [Op.transfer 0x55, Op.dmaInProgress, Op.transferTable 0, Op.transferBuf 0 16 3]
        (memOf sampleTable, txDma 0x20000300 spi1 0 9 idle)).isSome = true
    ∧ ∃ ms1, (Op.txDma 0 9).run (loopback 1) 300 0x20000300 spi1 (memOf sampleTable, idle)
          = some ms1
        ∧ dmaInProgress ms1.2 = true
        ∧ ∀ ms2, runOps (loopback 1) 300 0x20000300 spi1
            [Op.transfer 0x55, Op.dmaInProgress, Op.transferTable 0, Op.transferBuf 0 16 3]
            ms1 = some ms2 →
            dmaInProgress ms2.2 = true
            ∧ dmaInProgress (dmaCallback (loopback 1) spi1 0 ms2.2) = false :=
  ⟨rfl, by decide,
   (dma_in_flight_until_dispatch (loopback 1) 300 0x20000300 spi1 (Op.txDma 0 9)
      [Op.transfer 0x55, Op.dmaInProgress, Op.transferTable 0, Op.transferBuf 0 16 3] 0
      (memOf sampleTable) idle rfl).2.1⟩

/-- C5: for every state and every `flags`, one run of `dmaCallback` leaves the
`CCR` of both DMA channels equal to 0 and bits 0 and 1 of `CR2` clear, and its
trace ends with the invocation of the registered callback, made exactly once
with `completionParam`, after the writes that clear the two `CCR` and `CR2`;
without a registered callback nothing is invoked. -/
theorem dmaCallback_clears_then_calls_once (P : Periph σ) (inst : SPIMaster) (flags : Nat)
    (s : HW σ) :
    (dmaCallback P inst flags s).rx.CCR = 0
    ∧ (dmaCallback P inst flags s).tx.CCR = 0
    ∧ (dmaCallback P inst flags s).CR2.testBit 0 = false
    ∧ (dmaCallback P inst flags s).CR2.testBit 1 = false
    ∧ (∃ pre : List Ev,
        (dmaCallback P inst flags s).trace
          = s.trace ++ (pre ++ [Ev.wrTxCCR 0, Ev.wrRxCCR 0, Ev.rdCR2 s.CR2,
                                Ev.wrCR2 (s.CR2 &&& 0xFFFFFFFC)] ++ callEvents inst)
        ∧ (∀ e ∈ pre, e.isCall = false)
        ∧ (s.CR2 &&& 0xFFFFFFFC).testBit 0 = false
        ∧ (s.CR2 &&& 0xFFFFFFFC).testBit 1 = false)
    ∧ (((dmaCallback P inst flags s).trace.drop s.trace.length).filter Ev.isCall
        = callEvents inst)
    ∧ (∀ cb, inst.completionCB = some cb → callEvents inst = [Ev.call cb inst.completionParam])
    ∧ (inst.completionCB = none → callEvents inst = []) := by
  obtain ⟨hrx, htx, hcr2, _, _⟩ := dmaCallback_regs P inst flags s
  have htr := dmaCallback_trace_eq P inst flags s
  have hcalls : (callEvents inst).filter Ev.isCall = callEvents inst := by
    unfold callEvents
    cases inst.completionCB <;> rfl
  refine ⟨by rw [hrx], by rw [htx], ?_, ?_, ?_, ?_, ?_, ?_⟩
  · rw [hcr2]; exact testBit_land_clear _ _ _ (by decide)
  · rw [hcr2]; exact testBit_land_clear _ _ _ (by decide)
  · refine ⟨[Ev.rdSR (P.rdSR s.dev).1]
        ++ (if (P.rdSR s.dev).1 &&& (1 <<< 6) ≠ 0
              then [Ev.rdDR (P.rdDR (P.rdSR s.dev).2).1] else []), ?_, ?_,
        testBit_land_clear _ _ _ (by decide), testBit_land_clear _ _ _ (by decide)⟩
    · rw [htr]
    · intro e he
      split_ifs at he <;> simp at he <;> rcases he with rfl | rfl <;> rfl
  · rw [htr, List.drop_left, List.filter_append, List.filter_append, List.filter_append,
      hcalls]
    split_ifs <;> rfl
  · intro cb hcb
    simp [callEvents, hcb]
  · intro hcb
    simp [callEvents, hcb]

theorem dmaCallback_clears_then_calls_once_witness :
    (dmaCallback (loopback 0) spi1 0 (txDma 0x20000300 spi1 0x20000100 9 idle)).rx.CCR = 0
    ∧ (dmaCallback (loopback 0) spi1 0 (txDma 0x20000300 spi1 0x20000100 9 idle)).tx.CCR = 0
    ∧ (((dmaCallback (loopback 0) spi1 0
          (txDma 0x20000300 spi1 0x20000100 9 idle)).trace.drop
          (txDma 0x20000300 spi1 0x20000100 9 idle).trace.length).filter Ev.isCall
        = [Ev.call 0x08001234 0x20000010]) :=
  ⟨(dmaCallback_clears_then_calls_once (loopback 0) spi1 0
      (txDma 0x20000300 spi1 0x20000100 9 idle)).1,
   (dmaCallback_clears_then_calls_once (loopback 0) spi1 0
      (txDma 0x20000300 spi1 0x20000100 9 idle)).2.1,
   (dmaCallback_clears_then_calls_once (loopback 0) spi1 0
      (txDma 0x20000300 spi1 0x20000100 9 idle)).2.2.2.2.2.1⟩

/-- C6: `transferDma(tx, rx, len)` on an instance whose priority tag `p` lies in
bits 12-13 writes, in this order, the receive channel's `CNDTR = len`,
`CMAR = rx`, `CCR = p | 0x8B`, the transmit channel's `CNDTR = len`, `CMAR = tx`,
`CCR = p | 0x99`, and then sets bits 0 and 1 of `CR2`.  In the receive `CCR`
MINC, TEIE, TCIE, EN are set and DIR, HTIE are clear; in the transmit `CCR`
MINC, DIR, TEIE, EN are set and TCIE, HTIE are clear. -/
theorem transferDma_programs_channels (inst : SPIMaster) (txbuf rxbuf len : Nat) (s : HW σ)
    (hp : inst.dmaPriorityBits &&& 0x3000 = inst.dmaPriorityBits) :
    (transferDma inst txbuf rxbuf len s).rx
        = { s.rx with CNDTR := len, CMAR := rxbuf, CCR := inst.dmaPriorityBits ||| 0x8B }
    ∧ (transferDma inst txbuf rxbuf len s).tx
        = { s.tx with CNDTR := len, CMAR := txbuf, CCR := inst.dmaPriorityBits ||| 0x99 }
    ∧ (transferDma inst txbuf rxbuf len s).CR2 = s.CR2 ||| 3
    ∧ (transferDma inst txbuf rxbuf len s).CR2.testBit 0 = true
    ∧ (transferDma inst txbuf rxbuf len s).CR2.testBit 1 = true
    ∧ (transferDma inst txbuf rxbuf len s).trace = s.trace ++
        [Ev.wrRxCNDTR len, Ev.wrRxCMAR rxbuf, Ev.wrRxCCR (inst.dmaPriorityBits ||| 0x8B),
         Ev.wrTxCNDTR len, Ev.wrTxCMAR txbuf, Ev.wrTxCCR (inst.dmaPriorityBits ||| 0x99),
         Ev.rdCR2 s.CR2, Ev.wrCR2 (s.CR2 ||| 3)]
    ∧ ((inst.dmaPriorityBits ||| 0x8B).testBit 7 = true
        ∧ (inst.dmaPriorityBits ||| 0x8B).testBit 4 = false
        ∧ (inst.dmaPriorityBits ||| 0x8B).testBit 3 = true
        ∧ (inst.dmaPriorityBits ||| 0x8B).testBit 2 = false
        ∧ (inst.dmaPriorityBits ||| 0x8B).testBit 1 = true
        ∧ (inst.dmaPriorityBits ||| 0x8B).testBit 0 = true)
    ∧ ((inst.dmaPriorityBits ||| 0x99).testBit 7 = true
        ∧ (inst.dmaPriorityBits ||| 0x99).testBit 4 = true
        ∧ (inst.dmaPriorityBits ||| 0x99).testBit 3 = true
        ∧ (inst.dmaPriorityBits ||| 0x99).testBit 2 = false
        ∧ (inst.dmaPriorityBits ||| 0x99).testBit 1 = false
        ∧ (inst.dmaPriorityBits ||| 0x99).testBit 0 = true) := by
  have hcr2 : (transferDma inst txbuf rxbuf len s).CR2 = s.CR2 ||| 3 := by
    simp [transferDma, enableDma, HW.log]
  refine ⟨?_, ?_, hcr2, ?_, ?_, ?_, ?_, ?_⟩
  · simp [transferDma, enableDma, HW.log, lor_rx_bits]
  · simp [transferDma, enableDma, HW.log, lor_tx_bits]
  · rw [hcr2]; exact testBit_lor_set _ _ _ (by decide)
  · rw [hcr2]; exact testBit_lor_set _ _ _ (by decide)
  · simp [transferDma, enableDma, HW.log, lor_rx_bits, lor_tx_bits]
  · exact ⟨testBit_lor_set _ _ _ (by decide),
      testBit_lor_clear _ _ _ hp (by decide) (by decide),
      testBit_lor_set _ _ _ (by decide),
      testBit_lor_clear _ _ _ hp (by decide) (by decide),
      testBit_lor_set _ _ _ (by decide), testBit_lor_set _ _ _ (by decide)⟩
  · exact ⟨testBit_lor_set _ _ _ (by decide), testBit_lor_set _ _ _ (by decide),
      testBit_lor_set _ _ _ (by decide),
      testBit_lor_clear _ _ _ hp (by decide) (by decide),
      testBit_lor_clear _ _ _ hp (by decide) (by decide),
      testBit_lor_set _ _ _ (by decide)⟩

theorem transferDma_programs_channels_witness :
    spi1.dmaPriorityBits &&& 0x3000 = spi1.dmaPriorityBits
    ∧ (transferDma spi1 0x20000100 0x20000200 16 idle).rx
        = { idle.rx with CNDTR := 16, CMAR := 0x20000200, CCR := spi1.dmaPriorityBits ||| 0x8B } :=
  ⟨by decide, (transferDma_programs_channels spi1 0x20000100 0x20000200 16 idle (by decide)).1⟩

/-- C7: `txDma(tx, len)` programs the transmit channel and `CR2` exactly as
`transferDma(tx, &dummy, len)` does, and its resulting state differs from that
one only in the receive channel's `CCR` (and the trace entry of that write):
the receive channel has `CNDTR = len`, `CMAR = &dummy` and `CCR = p | 0x0B`,
where TEIE, TCIE, EN are set and MINC, DIR, HTIE are clear, while `transferDma`
sets MINC. -/
theorem txDma_differs_only_in_rx_ccr (dummy : Nat) (inst : SPIMaster) (txbuf len : Nat)
    (s : HW σ) (hp : inst.dmaPriorityBits &&& 0x3000 = inst.dmaPriorityBits) :
    txDma dummy inst txbuf len s
      = { transferDma inst txbuf dummy len s with
          rx := { (transferDma inst txbuf dummy len s).rx with
                  CCR := inst.dmaPriorityBits ||| 0x0B },
          trace := s.trace ++
            [Ev.wrRxCNDTR len, Ev.wrRxCMAR dummy, Ev.wrRxCCR (inst.dmaPriorityBits ||| 0x0B),
             Ev.wrTxCNDTR len, Ev.wrTxCMAR txbuf, Ev.wrTxCCR (inst.dmaPriorityBits ||| 0x99),
             Ev.rdCR2 s.CR2, Ev.wrCR2 (s.CR2 ||| 3)] }
    ∧ (txDma dummy inst txbuf len s).tx
        = { s.tx with CNDTR := len, CMAR := txbuf, CCR := inst.dmaPriorityBits ||| 0x99 }
    ∧ (txDma dummy inst txbuf len s).tx = (transferDma inst txbuf dummy len s).tx
    ∧ (txDma dummy inst txbuf len s).CR2 = s.CR2 ||| 3
    ∧ (txDma dummy inst txbuf len s).CR2 = (transferDma inst txbuf dummy len s).CR2
    ∧ (txDma dummy inst txbuf len s).rx
        = { s.rx with CNDTR := len, CMAR := dummy, CCR := inst.dmaPriorityBits ||| 0x0B }
    ∧ (transferDma inst txbuf dummy len s).rx.CCR = inst.dmaPriorityBits ||| 0x8B
    ∧ (transferDma inst txbuf dummy len s).rx.CCR.testBit 7 = true
    ∧ ((inst.dmaPriorityBits ||| 0x0B).testBit 7 = false
        ∧ (inst.dmaPriorityBits ||| 0x0B).testBit 4 = false
        ∧ (inst.dmaPriorityBits ||| 0x0B).testBit 3 = true
        ∧ (inst.dmaPriorityBits ||| 0x0B).testBit 2 = false
        ∧ (inst.dmaPriorityBits ||| 0x0B).testBit 1 = true
        ∧ (inst.dmaPriorityBits ||| 0x0B).testBit 0 = true) := by
  have hccr : (transferDma inst txbuf dummy len s).rx.CCR = inst.dmaPriorityBits ||| 0x8B := by
    simp [transferDma, enableDma, HW.log, lor_rx_bits]
  refine ⟨?_, ?_, ?_, ?_, ?_, ?_, hccr, ?_, ?_⟩
  · simp [txDma, transferDma, enableDma, HW.log, lor_rx_dummy_bits, lor_tx_bits]
  · simp [txDma, enableDma, HW.log, lor_tx_bits]
  · simp [txDma, transferDma, enableDma, HW.log]
  · simp [txDma, enableDma, HW.log]
  · simp [txDma, transferDma, enableDma, HW.log]
  · simp [txDma, enableDma, HW.log, lor_rx_dummy_bits]
  · rw [hccr]; exact testBit_lor_set _ _ _ (by decide)
  · exact ⟨testBit_lor_clear _ _ _ hp (by decide) (by decide),
      testBit_lor_clear _ _ _ hp (by decide) (by decide),
      testBit_lor_set _ _ _ (by decide),
      testBit_lor_clear _ _ _ hp (by decide) (by decide),
      testBit_lor_set _ _ _ (by decide), testBit_lor_set _ _ _ (by decide)⟩

theorem txDma_differs_only_in_rx_ccr_witness :
    spi1.dmaPriorityBits &&& 0x3000 = spi1.dmaPriorityBits
    ∧ (txDma 0x20000300 spi1 0x20000100 16 idle).rx
        = { idle.rx with CNDTR := 16, CMAR := 0x20000300, CCR := spi1.dmaPriorityBits ||| 0x0B } :=
  ⟨by decide,
   (txDma_differs_only_in_rx_ccr 0x20000300 spi1 0x20000100 16 idle (by decide)).2.2.2.2.2.1⟩

/-- C8: the events of one run of `dmaCallback` are, in order: the read of `SR`;
if that read shows the overrun flag (bit 6), one read of `DR`; then the writes
of the transmit `CCR`, the receive `CCR` and `CR2` (after a read of `CR2`) and
the callback invocation.  So with the flag set the dummy read of `DR` precedes
every register write and the callback, and with the flag clear `DR` is not
read. -/
theorem dmaCallback_dummy_read_first (P : Periph σ) (inst : SPIMaster) (flags : Nat)
    (s : HW σ) :
    ((P.rdSR s.dev).1.testBit 6 = true →
      ∃ post : List Ev,
        (dmaCallback P inst flags s).trace
          = s.trace ++ Ev.rdSR (P.rdSR s.dev).1 :: Ev.rdDR (P.rdDR (P.rdSR s.dev).2).1 :: post
        ∧ post = [Ev.wrTxCCR 0, Ev.wrRxCCR 0, Ev.rdCR2 s.CR2, Ev.wrCR2 (s.CR2 &&& 0xFFFFFFFC)]
                   ++ callEvents inst
        ∧ (∀ e ∈ post, e.isDRRead = false)
        ∧ (Ev.rdSR (P.rdSR s.dev).1).isRegWrite = false
        ∧ (Ev.rdSR (P.rdSR s.dev).1).isCall = false)
    ∧ ((P.rdSR s.dev).1.testBit 6 = false →
        (dmaCallback P inst flags s).trace
          = s.trace ++ Ev.rdSR (P.rdSR s.dev).1 ::
              ([Ev.wrTxCCR 0, Ev.wrRxCCR 0, Ev.rdCR2 s.CR2, Ev.wrCR2 (s.CR2 &&& 0xFFFFFFFC)]
                ++ callEvents inst)
        ∧ ∀ e ∈ (dmaCallback P inst flags s).trace.drop s.trace.length,
            e.isDRRead = false) := by
  have htr := dmaCallback_trace_eq P inst flags s
  have hcall : ∀ e ∈ [Ev.wrTxCCR 0, Ev.wrRxCCR 0, Ev.rdCR2 s.CR2,
      Ev.wrCR2 (s.CR2 &&& 0xFFFFFFFC)] ++ callEvents inst, e.isDRRead = false := by
    intro e he
    rcases List.mem_append.mp he with he | he
    · simp only [List.mem_cons, List.mem_singleton, List.not_mem_nil, or_false] at he
      rcases he with rfl | rfl | rfl | rfl <;> rfl
    · unfold callEvents at he
      cases hcb : inst.completionCB with
      | none => rw [hcb] at he; cases he
      | some cb =>
        rw [hcb] at he
        rw [List.mem_singleton.mp he]
        rfl
  constructor
  · intro hb
    have hc : (P.rdSR s.dev).1 &&& (1 <<< 6) ≠ 0 := (and64_ne_zero_iff _).mpr hb
    rw [if_pos hc] at htr
    refine ⟨_, ?_, rfl, hcall, rfl, rfl⟩
    rw [htr]
    simp
  · intro hb
    have hc : ¬ ((P.rdSR s.dev).1 &&& (1 <<< 6) ≠ 0) := by
      intro h
      rw [and64_ne_zero_iff, hb] at h
      cases h
    rw [if_neg hc] at htr
    have htr' : (dmaCallback P inst flags s).trace
          = s.trace ++ Ev.rdSR (P.rdSR s.dev).1 ::
              ([Ev.wrTxCCR 0, Ev.wrRxCCR 0, Ev.rdCR2 s.CR2, Ev.wrCR2 (s.CR2 &&& 0xFFFFFFFC)]
                ++ callEvents inst) := by
      rw [htr]; simp
    refine ⟨htr', ?_⟩
    rw [htr', List.drop_left]
    intro e he
    rcases List.mem_cons.mp he with rfl | he
    · rfl
    · exact hcall e he

theorem dmaCallback_dummy_read_first_witness :
    (overrunDev.rdSR inFlight.dev).1.testBit 6 = true
    ∧ (dmaCallback overrunDev spi1 0 inFlight).trace
        = [Ev.rdSR 0x43, Ev.rdDR 0xAB, Ev.wrTxCCR 0, Ev.wrRxCCR 0, Ev.rdCR2 0x7, Ev.wrCR2 0x4,
           Ev.call 0x08001234 0x20000010]
    ∧ ∃ post : List Ev,
        (dmaCallback overrunDev spi1 0 inFlight).trace
          = inFlight.trace ++ Ev.rdSR (overrunDev.rdSR inFlight.dev).1
              :: Ev.rdDR (overrunDev.rdDR (overrunDev.rdSR inFlight.dev).2).1 :: post
        ∧ post = [Ev.wrTxCCR 0, Ev.wrRxCCR 0, Ev.rdCR2 inFlight.CR2,
                  Ev.wrCR2 (inFlight.CR2 &&& 0xFFFFFFFC)] ++ callEvents spi1
        ∧ (∀ e ∈ post, e.isDRRead = false)
        ∧ (Ev.rdSR (overrunDev.rdSR inFlight.dev).1).isRegWrite = false
        ∧ (Ev.rdSR (overrunDev.rdSR inFlight.dev).1).isCall = false :=
  ⟨by decide, by decide,
   (dmaCallback_dummy_read_first overrunDev spi1 0 inFlight).1 (by decide)⟩

/-- C9: against the loopback peripheral (each written byte is the next byte
read), for every length and every input, the block transfer called in place
returns and leaves in its buffer the same bytes as the call with separate,
non-overlapping buffers leaves in `rxbuf`, namely the input bytes; the
register state and the trace are the same as well. -/
theorem transferBuf_in_place_same_rx (delay len a txbuf rxbuf : Nat) (m1 m2 : Mem)
    (s : HW Loop)
    (hin : ∀ i, i < len → load8 m1 (a + i) = load8 m2 (txbuf + i))
    (hdis : txbuf + len ≤ rxbuf ∨ rxbuf + len ≤ txbuf) :
    ∃ (F : Nat) (m1' m2' : Mem) (s' : HW Loop),
      (∀ fuel, F ≤ fuel →
        transferBuf (loopback delay) fuel a a len (m1, s) = some (m1', s')
        ∧ transferBuf (loopback delay) fuel txbuf rxbuf len (m2, s) = some (m2', s'))
      ∧ (∀ i, i < len → m1' (a + i) = m2' (rxbuf + i))
      ∧ (∀ i, i < len → m2' (rxbuf + i) = load8 m2 (txbuf + i)) := by
  obtain ⟨F, ⟨m1', s'⟩, h1⟩ :=
    transferSeq_terminates (loopback delay) (loopback_answers delay) len a a (m1, s)
  obtain ⟨m2', h2, hsame⟩ :=
    transferSeq_inplace_sep (loopback delay) F len a txbuf rxbuf m1 m2 s m1' s' hin hdis h1
  refine ⟨F, m1', m2', s', ?_, hsame, ?_⟩
  · intro fuel hF
    rw [transferBuf_eq_seq, transferBuf_eq_seq]
    exact ⟨transferSeq_mono _ hF _ _ _ h1, transferSeq_mono _ hF _ _ _ h2⟩
  · exact transferSeq_loopback_echo delay F len txbuf rxbuf m2 m2' s s' (by omega) h2

theorem transferBuf_in_place_same_rx_witness :
    (∀ i, i < 3 → load8 (memOf [7, 8, 9]) (0 + i) = load8 (memOf [7, 8, 9]) (0 + i))
    ∧ ((0 : Nat) + 3 ≤ 16 ∨ 16 + 3 ≤ 0)
    ∧ ∃ (F : Nat) (m1' m2' : Mem) (s' : HW Loop),
      (∀ fuel, F ≤ fuel →
        transferBuf (loopback 1) fuel 0 0 3 (memOf [7, 8, 9], idle) = some (m1', s')
        ∧ transferBuf (loopback 1) fuel 0 16 3 (memOf [7, 8, 9], idle) = some (m2', s'))
      ∧ (∀ i, i < 3 → m1' (0 + i) = m2' (16 + i))
      ∧ (∀ i, i < 3 → m2' (16 + i) = load8 (memOf [7, 8, 9]) (0 + i)) :=
  ⟨fun _ _ => rfl, by decide,
   transferBuf_in_place_same_rx 1 3 0 0 16 (memOf [7, 8, 9]) (memOf [7, 8, 9]) idle
     (fun _ _ => rfl) (by decide)⟩

/-- C10: `SPIMaster::init` sets `dmaPriorityBits` to `1 << 12` for SPI1, `2 << 12`
for SPI2 and `3 << 12` for SPI3, so two instances for distinct peripherals get
distinct priority tags; SPI1 and SPI2, and only they, get their channels from
DMA1. -/
theorem init_priority_tags_distinct (da db : Nat) (boardRev1 : Bool) (a b : SPIMaster)
    (s t : HW σ) (hab : a.hw ≠ b.hw) :
    (init da boardRev1 a s).1.dmaPriorityBits ≠ (init db boardRev1 b t).1.dmaPriorityBits
    ∧ (init da boardRev1 a s).1.dmaPriorityBits
        = (match a.hw with
           | HwId.SPI1 => 1 <<< 12
           | HwId.SPI2 => 2 <<< 12
           | HwId.SPI3 => 3 <<< 12)
    ∧ ((init da boardRev1 a s).1.dmaRxChan.1 = DmaCtl.DMA1
        ↔ (a.hw = HwId.SPI1 ∨ a.hw = HwId.SPI2))
    ∧ (init da boardRev1 a s).1.dmaTxChan.1 = (init da boardRev1 a s).1.dmaRxChan.1 := by
  cases ha : a.hw <;> cases hb : b.hw <;> simp_all [init]

theorem init_priority_tags_distinct_witness :
    spi1.hw ≠ spi2.hw
    ∧ (init 0x4001300C true spi1 idle).1.dmaPriorityBits
        ≠ (init 0x4000380C true spi2 idle).1.dmaPriorityBits :=
  ⟨by decide,
   (init_priority_tags_distinct 0x4001300C 0x4000380C true spi1 spi2 idle idle (by decide)).1⟩

end SPI
